import Mathlib

/-!
Verification of the bcoin UTXO record codec (lib/coins/coins.js).

The container and its serialization logic are translated from the source
file. The byte-stream primitives (varint reader and writer, u32 reader),
the script compressor and decompressor, and the primitives Output, Coin,
TX and script.isUnspendable live in modules that are not part of the
sources at hand; those are modelled from the specification and carry a
doc comment saying so.

Buffers are lists of natural numbers (bytes). Assertion failures and
decode errors are modelled by Option: none is a thrown error. The
reader is a pair of the backing list and a position; positioned reads
return the value together with the new position.
-/

set_option maxHeartbeats 1600000

namespace BcoinCoins

/-! Byte-stream primitives (spec-modelled). -/

/-- Modelled from the spec: the non-terminal groups of the Bitcoin-Core
varint-A writer (utils/encoding.js, not under src). Base 128, most
significant group first, every byte of this part carries the continuation
bit 0x80, and each non-terminal group is decremented by one on write. -/
def varintHigh (m : Nat) : List Nat :=
  if m < 128 then [m + 128]
  else varintHigh (m / 128 - 1) ++ [m % 128 + 128]
decreasing_by
  have h1 : m / 128 < m := Nat.div_lt_self (by omega) (by omega)
  omega

/-- Modelled from the spec: the varint-A writer. The terminal byte has a
clear continuation bit; higher groups are written by varintHigh. -/
def putVarint (n : Nat) : List Nat :=
  if n < 128 then [n] else varintHigh (n / 128 - 1) ++ [n % 128]

/-- Modelled from the spec: the varint-A read loop of utils/encoding.js
(n := n * 128 + (byte and 0x7f); if byte and 0x80 then n := n + 1 and
continue, else stop). Returns the value and the byte count consumed;
none on running off the end of the input. -/
def readVarintList (acc : Nat) : List Nat → Option (Nat × Nat)
  | [] => none
  | b :: rest =>
    if b &&& 128 = 0 then some (acc * 128 + (b &&& 127), 1)
    else
      match readVarintList (acc * 128 + (b &&& 127) + 1) rest with
      | none => none
      | some (v, k) => some (v, k + 1)

/-- Modelled from the spec: the 4-byte little-endian u32 writer of the
writer module (not under src). Values are truncated modulo 2^32. -/
def putU32 (n : Nat) : List Nat :=
  [n % 256, n / 256 % 256, n / 65536 % 256, n / 16777216 % 256]

/-- Positioned varint read: reads at pos, returns value and new position. -/
def readVarintAt (data : List Nat) (pos : Nat) : Option (Nat × Nat) :=
  match readVarintList 0 (data.drop pos) with
  | none => none
  | some (v, k) => some (v, pos + k)

/-- Modelled from the spec: positioned little-endian u32 read of the
reader module (not under src); none when fewer than 4 bytes remain. -/
def readU32At (data : List Nat) (pos : Nat) : Option (Nat × Nat) :=
  match data.drop pos with
  | b0 :: b1 :: b2 :: b3 :: _ => some (b0 + 256 * b1 + 65536 * b2 + 16777216 * b3, pos + 4)
  | _ => none

/-- Modelled from the spec: reader.readBytes with its bounds assertion. -/
def readBytes (n : Nat) (bs : List Nat) : Option (List Nat) :=
  if n ≤ bs.length then some (bs.take n) else none

/-! Script templates and the compressor (spec-modelled). -/

/-- Canonical p2pkh script: OP_DUP OP_HASH160 push20 h OP_EQUALVERIFY OP_CHECKSIG. -/
def mkP2PKH (h : List Nat) : List Nat := [118, 169, 20] ++ h ++ [136, 172]

/-- Canonical p2sh script: OP_HASH160 push20 h OP_EQUAL. -/
def mkP2SH (h : List Nat) : List Nat := [169, 20] ++ h ++ [135]

/-- Canonical compressed-key p2pk script: push33 (p :: x) OP_CHECKSIG,
with parity byte p equal to 2 or 3. -/
def mkP2PK (p : Nat) (x : List Nat) : List Nat := [33, p] ++ x ++ [172]

/-- Structural recognizer for the p2pkh template; yields the 20-byte hash. -/
def matchP2PKH (s : List Nat) : Option (List Nat) :=
  if s.length = 25 ∧ s.take 3 = [118, 169, 20] ∧ s.drop 23 = [136, 172] then
    some ((s.drop 3).take 20)
  else none

/-- Structural recognizer for the p2sh template; yields the 20-byte hash. -/
def matchP2SH (s : List Nat) : Option (List Nat) :=
  if s.length = 23 ∧ s.take 2 = [169, 20] ∧ s.drop 22 = [135] then
    some ((s.drop 2).take 20)
  else none

/-- Structural recognizer for compressed-key p2pk; yields the parity byte
and the 32-byte x coordinate. -/
def matchP2PK (s : List Nat) : Option (Nat × List Nat) :=
  if s.length = 35 ∧ s.take 2 = [33, 2] ∧ s.drop 34 = [172] then
    some (2, (s.drop 2).take 32)
  else if s.length = 35 ∧ s.take 2 = [33, 3] ∧ s.drop 34 = [172] then
    some (3, (s.drop 2).take 32)
  else none

/-- Modelled from the spec: compress.script of coins/compress.js (not under
src). Template scripts collapse to a template tag (0 p2pkh, 1 p2sh, 2 and 3
compressed p2pk) followed by the fixed payload; anything else falls back to
a length-tagged raw script with tag value length + 16. The tag is written
with the varint writer, which emits a single byte for every template tag and
for raw scripts shorter than 112 bytes. The uncompressed-p2pk templates 4
and 5 depend on elliptic-curve point recovery and are not modelled; such
scripts take the raw fallback here. -/
def compressScript (s : List Nat) : List Nat :=
  match matchP2PKH s with
  | some h => putVarint 0 ++ h
  | none =>
    match matchP2SH s with
    | some h => putVarint 1 ++ h
    | none =>
      match matchP2PK s with
      | some px => putVarint px.1 ++ px.2
      | none => putVarint (s.length + 16) ++ s

/-- Modelled from the spec: decompress.script of coins/compress.js (not
under src). Reads the tag, then the payload, reconstructing the canonical
template form; tags 6 to 15 are a hard decode error per the spec, and tags
4 and 5 (curve recovery, unmodelled) are rejected as well. Returns the
script and the byte count consumed. -/
def decompressScript (bs : List Nat) : Option (List Nat × Nat) :=
  match readVarintList 0 bs with
  | none => none
  | some (pfx, k) =>
    if pfx = 0 then
      match readBytes 20 (bs.drop k) with
      | none => none
      | some h => some (mkP2PKH h, k + 20)
    else if pfx = 1 then
      match readBytes 20 (bs.drop k) with
      | none => none
      | some h => some (mkP2SH h, k + 20)
    else if pfx = 2 ∨ pfx = 3 then
      match readBytes 32 (bs.drop k) with
      | none => none
      | some x => some (mkP2PK pfx x, k + 32)
    else if 16 ≤ pfx then
      match readBytes (pfx - 16) (bs.drop k) with
      | none => none
      | some s => some (s, k + (pfx - 16))
    else none

/-- Modelled from the spec: the abstract transaction output consumed by the
codec, a monetary value plus an opaque script (primitives/output.js, not
under src). -/
structure Output where
  value : Nat
  script : List Nat
deriving DecidableEq

/-- Modelled from the spec: compress.output writes the value varint then
the compressed script. -/
def compressOutput (o : Output) : List Nat :=
  putVarint o.value ++ compressScript o.script

/-- Modelled from the spec: decompress.output reads the value varint then
decompresses the script. Returns the output and the byte count consumed. -/
def decompressOutput (bs : List Nat) : Option (Output × Nat) :=
  match readVarintList 0 bs with
  | none => none
  | some (v, k1) =>
    match decompressScript (bs.drop k1) with
    | none => none
    | some (s, k2) => some (⟨v, s⟩, k1 + k2)

/-- The payload size dictated by a script tag: 20 for tags 0 and 1, 32
for tags 2 to 5, tag minus 16 for raw scripts; none for the reserved
range. -/
def skipPayload (pfx : Nat) : Option Nat :=
  if pfx = 0 ∨ pfx = 1 then some 20
  else if pfx = 2 ∨ pfx = 3 ∨ pfx = 4 ∨ pfx = 5 then some 32
  else if 16 ≤ pfx then some (pfx - 16)
  else none

/-- Modelled from the spec: decompress.skip advances past one compressed
output without materializing it, returning the byte count consumed: the
value varint, the tag varint, and the payload size dictated by the tag;
reserved tags are a hard error, as is a payload past the end of input. -/
def skipOutput (bs : List Nat) : Option Nat :=
  match readVarintList 0 bs with
  | none => none
  | some (_, k1) =>
    match readVarintList 0 (bs.drop k1) with
    | none => none
    | some (pfx, k2) =>
      match skipPayload pfx with
      | none => none
      | some pl => if pl ≤ (bs.drop (k1 + k2)).length then some (k1 + k2 + pl) else none

/-- Modelled from the spec: script.isUnspendable of the script primitive
(not under src); the spec describes unspendable scripts as statically
provably unredeemable, for example OP_RETURN prefixed (opcode 0x6a). -/
def scriptIsUnspendable (s : List Nat) : Bool :=
  match s with
  | b :: _ => b == 106
  | [] => false

/-! The coin primitives and the CoinEntry lazy handle (coins.js). -/

/-- Modelled from the spec: the standalone coin value, an output projected
together with outpoint and confirmation metadata (primitives/coin.js, not
under src). -/
structure Coin where
  version : Nat
  height : Nat
  coinbase : Bool
  hash : Nat
  index : Nat
  value : Nat
  script : List Nat
deriving DecidableEq

/-- CoinEntry of coins.js: a lazy handle for one output inside an encoded
record, holding either a materialized output or an offset and size into
the backing buffer. -/
structure CoinEntry where
  offset : Nat
  size : Nat
  raw : Option (List Nat)
  output : Option Output
  spent : Bool
deriving DecidableEq

/-- CoinEntry.fromOutput of coins.js. -/
def CoinEntry.fromOutput (o : Output) : CoinEntry :=
  { offset := 0, size := 0, raw := none, output := some o, spent := false }

/-- CoinEntry.fromCoin of coins.js: wraps the value and script of a coin. -/
def CoinEntry.fromCoin (c : Coin) : CoinEntry :=
  { offset := 0, size := 0, raw := none, output := some ⟨c.value, c.script⟩, spent := false }

/-- CoinEntry.prototype.toOutput: return the cached output, or lazily
decompress from the raw slice; the source asserts this.raw when neither
is available (modelled as none). -/
def CoinEntry.toOutput (e : CoinEntry) : Option Output :=
  match e.output with
  | some o => some o
  | none =>
    match e.raw with
    | none => none
    | some raw =>
      match decompressOutput (raw.drop e.offset) with
      | none => none
      | some op => some op.1

/-- CoinEntry.prototype.toWriter: byte-copy raw[offset .. offset + size]
when still backed by the buffer, otherwise re-encode the materialized
output (asserting it exists). -/
def CoinEntry.toWriter (e : CoinEntry) : Option (List Nat) :=
  match e.raw with
  | none =>
    match e.output with
    | none => none
    | some o => some (compressOutput o)
  | some raw => some ((raw.drop e.offset).take e.size)

/-- CoinEntry.fromReader: record the position, skip one compressed output
recording the byte count as the size, and keep a reference to the backing
buffer. Returns the entry and the advanced position. -/
def CoinEntry.fromReaderAt (data : List Nat) (pos : Nat) : Option (CoinEntry × Nat) :=
  match skipOutput (data.drop pos) with
  | none => none
  | some k =>
    some ({ offset := pos, size := k, raw := some data, output := none, spent := false }, pos + k)

/-! The Coins record (coins.js). -/

/-- Coins of coins.js: version, hash, height, coinbase flag and the sparse
vector of coin entries (null slots are gaps). -/
structure Coins where
  version : Nat
  hash : Nat
  height : Nat
  coinbase : Bool
  outputs : List (Option CoinEntry)
deriving DecidableEq

/-- Coins.prototype.get: undefined beyond the vector, else the slot, which
may itself be null; both map to none. -/
def Coins.get (c : Coins) (index : Nat) : Option CoinEntry :=
  c.outputs.getD index none

/-- Coins.prototype.has. -/
def Coins.has (c : Coins) (index : Nat) : Bool :=
  (c.get index).isSome

/-- Coins.prototype.isUnspent: a present entry whose spent flag is clear. -/
def Coins.isUnspent (c : Coins) (index : Nat) : Bool :=
  match c.get index with
  | none => false
  | some e => !e.spent

/-- Coins.prototype.add: pad with nulls up to the index, assert the slot is
empty (none on violation), then fill it. The index is a Nat so the
nonnegativity assertion of the source holds by type. -/
def Coins.add (c : Coins) (index : Nat) (entry : CoinEntry) : Option Coins :=
  let padded := c.outputs ++ List.replicate (index + 1 - c.outputs.length) none
  match padded.getD index none with
  | some _ => none
  | none => some { c with outputs := padded.set index (some entry) }

/-- Coins.prototype.addOutput: assert the script is spendable, then add. -/
def Coins.addOutput (c : Coins) (index : Nat) (o : Output) : Option Coins :=
  if scriptIsUnspendable o.script then none
  else c.add index (CoinEntry.fromOutput o)

/-- Coins.prototype.addCoin: assert the script is spendable, then add at
the index carried by the coin. -/
def Coins.addCoin (c : Coins) (coin : Coin) : Option Coins :=
  if scriptIsUnspendable coin.script then none
  else c.add coin.index (CoinEntry.fromCoin coin)

/-- Coins.prototype.spend: no-op returning the none sentinel for an absent
or already-spent slot; otherwise mark the entry spent and return it. -/
def Coins.spend (c : Coins) (index : Nat) : Coins × Option CoinEntry :=
  match c.get index with
  | none => (c, none)
  | some e =>
    if e.spent then (c, none)
    else ({ c with outputs := c.outputs.set index (some { e with spent := true }) },
          some { e with spent := true })

/-- Helper loop of Coins.prototype.cleanup: the length after trimming
trailing null slots, counting down from n. -/
def cleanupLen (l : List (Option CoinEntry)) : Nat → Nat
  | 0 => 0
  | n + 1 => if (l.getD n none).isSome then n + 1 else cleanupLen l n

/-- Coins.prototype.cleanup: truncate the vector to drop trailing nulls. -/
def Coins.cleanup (c : Coins) : Coins :=
  { c with outputs := c.outputs.take (cleanupLen c.outputs c.outputs.length) }

/-- Coins.prototype.remove: null the slot, run cleanup, return the
previous entry; the none sentinel when absent. -/
def Coins.remove (c : Coins) (index : Nat) : Coins × Option CoinEntry :=
  match c.get index with
  | none => (c, none)
  | some e => (Coins.cleanup { c with outputs := c.outputs.set index none }, some e)

/-- Helper loop of Coins.prototype.length: count down from n while the
slot below is not unspent. -/
def lengthFrom (c : Coins) : Nat → Nat
  | 0 => 0
  | n + 1 => if c.isUnspent n then n + 1 else lengthFrom c n

/-- Coins.prototype.length: one plus the highest unspent index, or zero. -/
def Coins.length (c : Coins) : Nat := lengthFrom c c.outputs.length

/-- Coins.prototype.isEmpty. -/
def Coins.isEmpty (c : Coins) : Bool := c.length == 0

/-- Coins.prototype.getCoin: undefined (inner none) when the slot is
absent; otherwise materialize the output and project it into a coin with
the metadata of the record. Outer none is a thrown decode error. -/
def Coins.getCoin (c : Coins) (index : Nat) : Option (Option Coin) :=
  match c.get index with
  | none => some none
  | some e =>
    match e.toOutput with
    | none => none
    | some o =>
      some (some { version := c.version, height := c.height, coinbase := c.coinbase,
                   hash := c.hash, index := index, value := o.value, script := o.script })

/-- Coins.prototype.getOutput, with the same error convention as getCoin. -/
def Coins.getOutput (c : Coins) (index : Nat) : Option (Option Output) :=
  match c.get index with
  | none => some none
  | some e =>
    match e.toOutput with
    | none => none
    | some o => some (some o)

/-! Serialization (coins.js). -/

/-- Coins.prototype.header: assert len is nonzero (cannot serialize
fully-spent coins) and, when neither of the first two outputs is unspent,
assert size is nonzero and store size minus one in the high bits. -/
def Coins.header (c : Coins) (len size : Nat) : Option Nat :=
  if len = 0 then none
  else if !c.isUnspent 0 && !c.isUnspent 1 then
    if size = 0 then none
    else some (8 * (size - 1) + (if c.coinbase then 1 else 0))
  else some (8 * size + (if c.coinbase then 1 else 0) +
             (if c.isUnspent 0 then 2 else 0) + (if c.isUnspent 1 then 4 else 0))

/-- One byte of the extended spent-field written by Coins.prototype.toRaw:
bit j is set when output 2 + i * 8 + j is below len and unspent. -/
def spentByte (c : Coins) (len i : Nat) : Nat :=
  (List.range 8).foldl
    (fun ch j => if 2 + i * 8 + j < len && c.isUnspent (2 + i * 8 + j) then ch ||| (1 <<< j)
                 else ch) 0

/-- The extended spent-field: size bytes in ascending order. -/
def Coins.spentField (c : Coins) (size len : Nat) : List Nat :=
  (List.range size).map (fun i => spentByte c len i)

/-- The output loop of Coins.prototype.toRaw over the given indices: null
and spent slots contribute nothing, live slots contribute their toWriter
bytes (none propagates the toWriter assertion). -/
def tailFrom (c : Coins) : List Nat → Option (List Nat)
  | [] => some []
  | i :: is =>
    match c.get i with
    | none => tailFrom c is
    | some e =>
      if e.spent then tailFrom c is
      else
        match e.toWriter, tailFrom c is with
        | some bs, some rest => some (bs ++ rest)
        | _, _ => none

/-- Coins.prototype.toRaw: version varint, height u32, header-code varint,
extended spent-field, then the compressed outputs in index order. -/
def Coins.toRaw (c : Coins) : Option (List Nat) :=
  let len := c.length
  let size := (len + 5) / 8
  match c.header len size with
  | none => none
  | some code =>
    match tailFrom c (List.range len) with
    | none => none
    | some tail =>
      some (putVarint c.version ++ putU32 c.height ++ putVarint code ++
            c.spentField size len ++ tail)

/-- The size recalculation shared by fromRaw and parseCoin: the high bits
of the code, plus one when bits 1 and 2 are both clear. -/
def recoverSize (code : Nat) : Nat :=
  if code &&& 6 = 0 then code / 8 + 1 else code / 8

/-- The bits of the extended spent-field as consumed by the decode loops:
for each byte i below size, bits j = 0 to 7, LSB first. -/
def extBits (data : List Nat) (offset size : Nat) : List Bool :=
  (List.range size).flatMap
    (fun i => (List.range 8).map (fun j => (data.getD (offset + i) 0) &&& (1 <<< j) != 0))

/-- The entry-reading walk of Coins.prototype.fromRaw over a list of
presence bits: a set bit reads a CoinEntry from the reader (advancing it),
a clear bit pushes a gap. Returns the slots and the final position. -/
def readEntries (data : List Nat) : List Bool → Nat → Option (List (Option CoinEntry) × Nat)
  | [], pos => some ([], pos)
  | b :: bs, pos =>
    if b then
      match CoinEntry.fromReaderAt data pos with
      | none => none
      | some ep =>
        match readEntries data bs ep.2 with
        | none => none
        | some esp => some (some ep.1 :: esp.1, esp.2)
    else
      match readEntries data bs pos with
      | none => none
      | some esp => some (none :: esp.1, esp.2)

/-- Coins.prototype.fromRaw: read version, height and code, recover the
spent-field size, seek past the field (bounds-checked), read the first two
outputs from code bits 1 and 2, then one slot per extended-field bit,
and cleanup. The hash is injected by the caller. -/
def Coins.fromRaw (data : List Nat) (hash : Nat) : Option Coins :=
  match readVarintAt data 0 with
  | none => none
  | some (version, p1) =>
    match readU32At data p1 with
    | none => none
    | some (height, p2) =>
      match readVarintAt data p2 with
      | none => none
      | some (code, p3) =>
        let size := recoverSize code
        if data.length < p3 + size then none
        else
          match readEntries data [code &&& 2 != 0, code &&& 4 != 0] (p3 + size) with
          | none => none
          | some ftp =>
            match readEntries data (extBits data p3 size) ftp.2 with
            | none => none
            | some esp =>
              some (Coins.cleanup
                { version := version, hash := hash, height := height,
                  coinbase := code &&& 1 != 0, outputs := ftp.1 ++ esp.1 })

/-- The index-walk of Coins.parseCoin over the presence bits: decrement the
wanted index at every slot; at a live slot either skip the compressed
output or, when the count hits zero, decompress it; at a gap with count
zero, or when the bits run out, report not-found (inner none). -/
def parseWalk (data : List Nat) : List Bool → Nat → Nat → Option (Option Output)
  | [], _, _ => some none
  | b :: bs, pos, k =>
    if b then
      if k = 0 then
        match decompressOutput (data.drop pos) with
        | none => none
        | some op => some (some op.1)
      else
        match skipOutput (data.drop pos) with
        | none => none
        | some sz => parseWalk data bs (pos + sz) (k - 1)
    else
      if k = 0 then some none
      else parseWalk data bs pos (k - 1)

/-- Coins.parseCoin: read the headers, recover the size, return not-found
immediately when the wanted index is at least 2 + size * 8, then walk the
first-two bits and the extended-field bits exactly as fromRaw orders the
slots. The resulting output is projected into a coin with the decoded
metadata, the injected hash and the original index. -/
def Coins.parseCoin (data : List Nat) (hash index : Nat) : Option (Option Coin) :=
  match readVarintAt data 0 with
  | none => none
  | some (version, p1) =>
    match readU32At data p1 with
    | none => none
    | some (height, p2) =>
      match readVarintAt data p2 with
      | none => none
      | some (code, p3) =>
        let size := recoverSize code
        if 2 + size * 8 ≤ index then some none
        else if data.length < p3 + size then none
        else
          match parseWalk data
              ([code &&& 2 != 0, code &&& 4 != 0] ++ extBits data p3 size)
              (p3 + size) index with
          | none => none
          | some none => some none
          | some (some o) =>
            some (some { version := version, height := height,
                         coinbase := code &&& 1 != 0, hash := hash, index := index,
                         value := o.value, script := o.script })

/-- The spent-field size as decoded from the first three header fields of
a buffer; none when the header itself does not parse. -/
def decodedSpentSize (data : List Nat) : Option Nat :=
  match readVarintAt data 0 with
  | none => none
  | some vp1 =>
    match readU32At data vp1.2 with
    | none => none
    | some hp2 =>
      match readVarintAt data hp2.2 with
      | none => none
      | some cp3 => some (recoverSize cp3.1)

/-- Modelled from the spec: the abstract transaction interface consumed by
Coins.fromTX (a version, a hash, a coinbase flag and an ordered output
list); the TX primitive is not under src. -/
structure TX where
  version : Nat
  hash : Nat
  coinbase : Bool
  outputs : List Output

/-- Coins.fromTX: unspendable outputs become gaps, the rest become
materialized entries, then cleanup. -/
def Coins.fromTX (tx : TX) (height : Nat) : Coins :=
  Coins.cleanup
    { version := tx.version, hash := tx.hash, height := height, coinbase := tx.coinbase,
      outputs := tx.outputs.map
        (fun o => if scriptIsUnspendable o.script then none
                  else some (CoinEntry.fromOutput o)) }

/-- The materialized value and script of slot i: none when the slot is a
gap or materialization fails. -/
def Coins.outputAt (c : Coins) (i : Nat) : Option Output :=
  (c.get i).bind CoinEntry.toOutput

/-! Proof-side notions: well-formed entries, tail tiling, invariants. -/

/-- The blob list for a record slot: the serialized bytes of a live entry,
none for a gap or a spent entry. -/
def slotBytes (c : Coins) (i : Nat) : Option (List Nat) :=
  match c.get i with
  | none => none
  | some e => if e.spent then none else e.toWriter

/-- Concatenation of a list of optional blobs, gaps contributing nothing. -/
def blobFlatten (ps : List (Option (List Nat))) : List Nat :=
  (ps.map (fun p => p.getD [])).flatten

/-- The entries fromRaw reconstructs for a tiled tail: one raw-backed
handle per blob, with consecutive offsets, and a gap per missing blob. -/
def tiledEntries (data : List Nat) : List (Option (List Nat)) → Nat → List (Option CoinEntry)
  | [], _ => []
  | none :: ps, pos => none :: tiledEntries data ps pos
  | some B :: ps, pos =>
    some { offset := pos, size := B.length, raw := some data, output := none, spent := false } ::
      tiledEntries data ps (pos + B.length)

/-- A blob the skip primitive measures exactly, in any right context. -/
def SkipStable (B : List Nat) : Prop :=
  ∀ rest, skipOutput (B ++ rest) = some B.length

/-- A blob that decompresses to the given output, consuming exactly
itself, in any right context. -/
def DecodesTo (B : List Nat) (o : Output) : Prop :=
  ∀ rest, decompressOutput (B ++ rest) = some (o, B.length)

/-- A well-formed entry: its serialized bytes exist, they are measured
exactly by skip, and they decompress back to its materialized output. -/
def CoinEntry.WFO (e : CoinEntry) : Prop :=
  ∃ B o, e.toWriter = some B ∧ e.toOutput = some o ∧ SkipStable B ∧ DecodesTo B o

/-- A well-formed record: every live entry is well-formed. -/
def Coins.WF (c : Coins) : Prop :=
  ∀ en ∈ c.outputs, ∀ e, en = some e → e.spent = false → e.WFO

/-- The cleanup invariant that the code actually maintains: the outputs
vector never ends in a null slot. -/
def NoTrailingGap (c : Coins) : Prop := c.outputs.getLast? ≠ some none

/-- The blob of every slot described by the encoding of c: the first two
slots plus the 8 * size slots of the extended spent-field. -/
def psFull (c : Coins) : List (Option (List Nat)) :=
  (List.range (2 + 8 * ((c.length + 5) / 8))).map (fun k => slotBytes c k)

/-- The position where the compressed-output tail of the encoding of c
starts: after the version varint, the u32 height, the code varint and the
spent field. -/
def tailStart (c : Coins) (code : Nat) : Nat :=
  (putVarint c.version).length + 4 + (putVarint code).length + (c.length + 5) / 8

/-! Concrete records used by the witnesses. -/

/-- A raw-script output: value 5, script [OP_1]. -/
def exOut : Output := ⟨5, [81]⟩

/-- A p2pkh output: value 7, hash of twenty 9 bytes. -/
def exOut2 : Output := ⟨7, mkP2PKH (List.replicate 20 9)⟩

/-- A one-output coinbase record. -/
def exCoins : Coins :=
  { version := 1, hash := 0, height := 100, coinbase := true,
    outputs := [some (CoinEntry.fromOutput exOut)] }

/-- Nine outputs, only index 8 unspent (scenario 3 of the spec). -/
def exCoins9 : Coins :=
  { version := 1, hash := 0, height := 100, coinbase := false,
    outputs := List.replicate 8 none ++ [some (CoinEntry.fromOutput exOut2)] }

/-- A fully-spent record: one entry, marked spent. -/
def exSpent : Coins :=
  { version := 1, hash := 0, height := 100, coinbase := true,
    outputs := [some { CoinEntry.fromOutput exOut with spent := true }] }

/-- An unspendable output: OP_RETURN. -/
def exBadOut : Output := ⟨3, [106]⟩

/-- A transaction with a spendable and an unspendable output. -/
def exTX : TX := { version := 1, hash := 5, coinbase := false, outputs := [exOut, exBadOut] }

/-! Bit-level helper lemmas. -/

theorem and_two_pow_eq (x i : Nat) : x &&& 2 ^ i = if x.testBit i then 2 ^ i else 0 := by
  apply Nat.eq_of_testBit_eq
  intro j
  rw [Nat.testBit_and]
  by_cases h : i = j
  · subst h
    by_cases hb : x.testBit i <;> simp [hb, Nat.testBit_two_pow_self]
  · have h2 : (2 ^ i).testBit j = false := by
      rw [Nat.testBit_two_pow]
      simp [h]
    by_cases hb : x.testBit i <;> simp [h2, hb]

theorem and_128_of_lt {x : Nat} (h : x < 128) : x &&& 128 = 0 := by
  have h1 : (128 : Nat) = 2 ^ 7 := by norm_num
  rw [h1, and_two_pow_eq]
  have h2 : x.testBit 7 = false := Nat.testBit_lt_two_pow (by omega)
  simp [h2]

theorem and_128_of_high {x : Nat} (h : x < 128) : (x + 128) &&& 128 = 128 := by
  have h1 : (128 : Nat) = 2 ^ 7 := by norm_num
  rw [h1, and_two_pow_eq]
  have h2 : (x + 128).testBit 7 = true := by
    rw [Nat.testBit_to_div_mod]
    simp only [decide_eq_true_eq]
    have h4 : (2 : Nat) ^ 7 = 128 := by norm_num
    rw [h4]
    omega
  simp [h2]

theorem and_127_eq (x : Nat) : x &&& 127 = x % 128 := by
  have h1 : (127 : Nat) = 2 ^ 7 - 1 := by norm_num
  have h2 : (128 : Nat) = 2 ^ 7 := by norm_num
  rw [h1, h2, Nat.and_pow_two_sub_one_eq_mod]

theorem and_small_eq_mod (x y : Nat) (hy : y < 8) : x &&& y = (x % 8) &&& y := by
  apply Nat.eq_of_testBit_eq
  intro j
  rw [Nat.testBit_and, Nat.testBit_and]
  have h8 : (8 : Nat) = 2 ^ 3 := by norm_num
  rw [h8, Nat.testBit_mod_two_pow]
  by_cases hj : j < 3
  · simp [hj]
  · have hy2 : y < 2 ^ j := by
      have : (2 : Nat) ^ 3 ≤ 2 ^ j := Nat.pow_le_pow_right (by omega) (by omega)
      omega
    have : y.testBit j = false := Nat.testBit_lt_two_pow hy2
    simp [this, hj]

/-! Varint round-trip. -/

theorem varintHigh_read (m : Nat) : ∀ (acc : Nat) (rest : List Nat),
    readVarintList acc (varintHigh m ++ rest) =
      (readVarintList (acc * 128 ^ (varintHigh m).length + m + 1) rest).map
        (fun vk => (vk.1, vk.2 + (varintHigh m).length)) := by
  induction m using Nat.strong_induction_on with
  | _ m ih =>
    intro acc rest
    by_cases h : m < 128
    · have he : varintHigh m = [m + 128] := by rw [varintHigh, if_pos h]
      have hb : (m + 128) &&& 128 = 128 := and_128_of_high h
      have hl : (m + 128) &&& 127 = m := by rw [and_127_eq]; omega
      rw [he]
      simp only [List.cons_append, List.nil_append, readVarintList, hb, hl, List.length_cons,
        List.length_nil, pow_one]
      rw [if_neg (by omega)]
      cases hres : readVarintList (acc * 128 + m + 1) rest with
      | none => simp [hres]
      | some vk => obtain ⟨v, k⟩ := vk; simp [hres]
    · have hlt : m / 128 - 1 < m := by
        have h1 : m / 128 < m := Nat.div_lt_self (by omega) (by omega)
        omega
      have hdiv : 1 ≤ m / 128 := (Nat.le_div_iff_mul_le (by omega)).mpr (by omega)
      have he : varintHigh m = varintHigh (m / 128 - 1) ++ [m % 128 + 128] := by
        rw [varintHigh, if_neg h]
      have hb : (m % 128 + 128) &&& 128 = 128 := and_128_of_high (by omega)
      have hl : (m % 128 + 128) &&& 127 = m % 128 := by rw [and_127_eq]; omega
      rw [he, List.append_assoc, List.cons_append, List.nil_append,
        ih (m / 128 - 1) hlt acc ((m % 128 + 128) :: rest)]
      simp only [readVarintList, hb, hl]
      rw [if_neg (by omega)]
      have hacc : (acc * 128 ^ (varintHigh (m / 128 - 1)).length + (m / 128 - 1) + 1) * 128 +
          m % 128 + 1 =
          acc * 128 ^ (varintHigh (m / 128 - 1) ++ [m % 128 + 128]).length + m + 1 := by
        simp only [List.length_append, List.length_cons, List.length_nil, pow_succ,
          ← Nat.mul_assoc]
        have h2 : 128 * (m / 128) + m % 128 = m := Nat.div_add_mod m 128
        omega
      rw [hacc]
      cases hres : readVarintList (acc * 128 ^ (varintHigh (m / 128 - 1) ++
          [m % 128 + 128]).length + m + 1) rest with
      | none => simp [hres]
      | some vk =>
        obtain ⟨v, k⟩ := vk
        simp [hres]
        omega

theorem putVarint_read (n : Nat) (rest : List Nat) :
    readVarintList 0 (putVarint n ++ rest) = some (n, (putVarint n).length) := by
  by_cases h : n < 128
  · have he : putVarint n = [n] := by rw [putVarint, if_pos h]
    have hb : n &&& 128 = 0 := and_128_of_lt h
    have hl : n &&& 127 = n := by rw [and_127_eq]; omega
    rw [he]
    simp [readVarintList, hb, hl]
  · have he : putVarint n = varintHigh (n / 128 - 1) ++ [n % 128] := by
      rw [putVarint, if_neg h]
    have hdiv : 1 ≤ n / 128 := (Nat.le_div_iff_mul_le (by omega)).mpr (by omega)
    have hb : n % 128 &&& 128 = 0 := and_128_of_lt (by omega)
    have hl : n % 128 &&& 127 = n % 128 := by rw [and_127_eq]; omega
    rw [he, List.append_assoc, List.cons_append, List.nil_append, varintHigh_read]
    have hacc : 0 * 128 ^ (varintHigh (n / 128 - 1)).length + (n / 128 - 1) + 1 = n / 128 := by
      omega
    rw [hacc]
    have hv : n / 128 * 128 + n % 128 = n := by
      rw [Nat.mul_comm]; exact Nat.div_add_mod n 128
    simp [readVarintList, hb, hl, hv, Nat.add_comm]

theorem readVarintAt_spec (data : List Nat) (pos n : Nat) (rest : List Nat)
    (h : data.drop pos = putVarint n ++ rest) :
    readVarintAt data pos = some (n, pos + (putVarint n).length) := by
  rw [readVarintAt, h, putVarint_read]

theorem readU32At_spec (data : List Nat) (pos n : Nat) (rest : List Nat)
    (h : data.drop pos = putU32 n ++ rest) (hn : n < 2 ^ 32) :
    readU32At data pos = some (n, pos + 4) := by
  rw [readU32At, h]
  show some (n % 256 + 256 * (n / 256 % 256) + 65536 * (n / 65536 % 256) +
    16777216 * (n / 16777216 % 256), pos + 4) = some (n, pos + 4)
  have : n % 256 + 256 * (n / 256 % 256) + 65536 * (n / 65536 % 256) +
      16777216 * (n / 16777216 % 256) = n := by omega
  rw [this]

/-! List reconstruction helpers. -/

theorem take_take_drop (s : List Nat) (a b : Nat) :
    s = s.take a ++ ((s.drop a).take b ++ (s.drop a).drop b) := by
  rw [List.take_append_drop, List.take_append_drop]

theorem drop_append_plus {α : Type} (P X : List α) (j : Nat) :
    (P ++ X).drop (P.length + j) = X.drop j := by
  rw [← List.drop_drop, List.drop_left]

/-! Template recognizer inversion. -/

theorem matchP2PKH_eq {s h : List Nat} (hm : matchP2PKH s = some h) :
    h.length = 20 ∧ s = mkP2PKH h := by
  rw [matchP2PKH] at hm
  split at hm
  case isTrue hc =>
    obtain ⟨h1, h2, h3⟩ := hc
    injection hm with hm
    subst hm
    have hd : (s.drop 3).drop 20 = s.drop 23 := by rw [List.drop_drop]
    constructor
    · simp [List.length_take, List.length_drop, h1]
    · conv_lhs => rw [take_take_drop s 3 20]
      rw [h2, hd, h3, mkP2PKH, List.append_assoc]
  case isFalse => exact absurd hm (by simp)

theorem matchP2SH_eq {s h : List Nat} (hm : matchP2SH s = some h) :
    h.length = 20 ∧ s = mkP2SH h := by
  rw [matchP2SH] at hm
  split at hm
  case isTrue hc =>
    obtain ⟨h1, h2, h3⟩ := hc
    injection hm with hm
    subst hm
    have hd : (s.drop 2).drop 20 = s.drop 22 := by rw [List.drop_drop]
    constructor
    · simp [List.length_take, List.length_drop, h1]
    · conv_lhs => rw [take_take_drop s 2 20]
      rw [h2, hd, h3, mkP2SH, List.append_assoc]
  case isFalse => exact absurd hm (by simp)

theorem matchP2PK_eq {s : List Nat} {p : Nat} {x : List Nat}
    (hm : matchP2PK s = some (p, x)) :
    (p = 2 ∨ p = 3) ∧ x.length = 32 ∧ s = mkP2PK p x := by
  rw [matchP2PK] at hm
  split at hm
  case isTrue hc =>
    obtain ⟨h1, h2, h3⟩ := hc
    injection hm with hm
    injection hm with hp hx
    subst hp
    subst hx
    have hd : (s.drop 2).drop 32 = s.drop 34 := by rw [List.drop_drop]
    refine ⟨Or.inl rfl, ?_, ?_⟩
    · simp [List.length_take, List.length_drop, h1]
    · conv_lhs => rw [take_take_drop s 2 32]
      rw [h2, hd, h3, mkP2PK, List.append_assoc]
  case isFalse =>
    split at hm
    case isTrue hc =>
      obtain ⟨h1, h2, h3⟩ := hc
      injection hm with hm
      injection hm with hp hx
      subst hp
      subst hx
      have hd : (s.drop 2).drop 32 = s.drop 34 := by rw [List.drop_drop]
      refine ⟨Or.inr rfl, ?_, ?_⟩
      · simp [List.length_take, List.length_drop, h1]
      · conv_lhs => rw [take_take_drop s 2 32]
        rw [h2, hd, h3, mkP2PK, List.append_assoc]
    case isFalse => exact absurd hm (by simp)

/-! Codec round-trip. -/

theorem putVarint_of_lt {n : Nat} (h : n < 128) : putVarint n = [n] := by
  rw [putVarint, if_pos h]

theorem read_tag (t : Nat) (pl rest : List Nat) :
    readVarintList 0 ((putVarint t ++ pl) ++ rest) = some (t, (putVarint t).length) ∧
      ((putVarint t ++ pl) ++ rest).drop (putVarint t).length = pl ++ rest := by
  constructor
  · rw [List.append_assoc, putVarint_read]
  · rw [List.append_assoc, List.drop_left]

theorem readBytes_exact {pl : List Nat} (n : Nat) (rest : List Nat) (h : pl.length = n) :
    readBytes n (pl ++ rest) = some pl := by
  rw [readBytes, if_pos (by simp [List.length_append]; omega)]
  exact congrArg some (List.take_left' h)

theorem decompressScript_compress (s : List Nat) (rest : List Nat) :
    decompressScript (compressScript s ++ rest) = some (s, (compressScript s).length) := by
  rw [compressScript]
  cases hpkh : matchP2PKH s with
  | some h =>
    obtain ⟨hlen, hs⟩ := matchP2PKH_eq hpkh
    obtain ⟨hr, hd⟩ := read_tag 0 h rest
    simp only [decompressScript, hr, hd, readBytes_exact 20 rest hlen]
    simp [hs, putVarint_of_lt (show (0 : Nat) < 128 by norm_num), hlen]
  | none =>
    cases hsh : matchP2SH s with
    | some h =>
      obtain ⟨hlen, hs⟩ := matchP2SH_eq hsh
      obtain ⟨hr, hd⟩ := read_tag 1 h rest
      simp only [decompressScript, hr, hd, readBytes_exact 20 rest hlen]
      simp [hs, putVarint_of_lt (show (1 : Nat) < 128 by norm_num), hlen]
    | none =>
      cases hpk : matchP2PK s with
      | some px =>
        obtain ⟨p, x⟩ := px
        obtain ⟨hp, hxlen, hs⟩ := matchP2PK_eq hpk
        obtain ⟨hr, hd⟩ := read_tag p x rest
        rcases hp with rfl | rfl
        · simp only [decompressScript, hr, hd, readBytes_exact 32 rest hxlen]
          simp [hs, putVarint_of_lt (show (2 : Nat) < 128 by norm_num), hxlen]
        · simp only [decompressScript, hr, hd, readBytes_exact 32 rest hxlen]
          simp [hs, putVarint_of_lt (show (3 : Nat) < 128 by norm_num), hxlen]
      | none =>
        obtain ⟨hr, hd⟩ := read_tag (s.length + 16) s rest
        simp only [decompressScript, hr, hd]
        rw [if_neg (by omega), if_neg (by omega), if_neg (by omega), if_pos (by omega)]
        have h16 : s.length + 16 - 16 = s.length := by omega
        rw [h16, readBytes_exact s.length rest rfl]
        simp [List.length_append]

theorem compressScript_parts (s : List Nat) :
    ∃ t pl, compressScript s = putVarint t ++ pl ∧ skipPayload t = some pl.length := by
  rw [compressScript]
  cases hpkh : matchP2PKH s with
  | some h =>
    obtain ⟨hlen, _⟩ := matchP2PKH_eq hpkh
    exact ⟨0, h, rfl, by simp [skipPayload, hlen]⟩
  | none =>
    cases hsh : matchP2SH s with
    | some h =>
      obtain ⟨hlen, _⟩ := matchP2SH_eq hsh
      exact ⟨1, h, rfl, by simp [skipPayload, hlen]⟩
    | none =>
      cases hpk : matchP2PK s with
      | some px =>
        obtain ⟨p, x⟩ := px
        obtain ⟨hp, hxlen, _⟩ := matchP2PK_eq hpk
        refine ⟨p, x, rfl, ?_⟩
        rcases hp with rfl | rfl <;> simp [skipPayload, hxlen]
      | none =>
        refine ⟨s.length + 16, s, rfl, ?_⟩
        simp only [skipPayload]
        rw [if_neg (by omega), if_neg (by omega), if_pos (by omega)]
        simp

theorem skip_compressOutput (o : Output) (rest : List Nat) :
    skipOutput (compressOutput o ++ rest) = some (compressOutput o).length := by
  obtain ⟨t, pl, hcs, hsp⟩ := compressScript_parts o.script
  rw [compressOutput, hcs]
  have hr1 : readVarintList 0 ((putVarint o.value ++ (putVarint t ++ pl)) ++ rest) =
      some (o.value, (putVarint o.value).length) := by
    rw [List.append_assoc, putVarint_read]
  have hd1 : ((putVarint o.value ++ (putVarint t ++ pl)) ++ rest).drop
      (putVarint o.value).length = (putVarint t ++ pl) ++ rest := by
    rw [List.append_assoc, List.drop_left]
  have hr2 : readVarintList 0 ((putVarint t ++ pl) ++ rest) =
      some (t, (putVarint t).length) := by
    rw [List.append_assoc, putVarint_read]
  have hd2 : ((putVarint o.value ++ (putVarint t ++ pl)) ++ rest).drop
      ((putVarint o.value).length + (putVarint t).length) = pl ++ rest := by
    rw [List.append_assoc, drop_append_plus, List.append_assoc, List.drop_left]
  simp only [skipOutput, hr1, hd1, hr2, hsp, hd2]
  rw [if_pos (by simp)]
  simp [List.length_append, Nat.add_assoc]

theorem decompressOutput_compress (o : Output) (rest : List Nat) :
    decompressOutput (compressOutput o ++ rest) = some (o, (compressOutput o).length) := by
  have hr1 : readVarintList 0 ((putVarint o.value ++ compressScript o.script) ++ rest) =
      some (o.value, (putVarint o.value).length) := by
    rw [List.append_assoc, putVarint_read]
  have hd1 : ((putVarint o.value ++ compressScript o.script) ++ rest).drop
      (putVarint o.value).length = compressScript o.script ++ rest := by
    rw [List.append_assoc, List.drop_left]
  rw [compressOutput]
  simp only [decompressOutput, hr1, hd1, decompressScript_compress]
  simp [List.length_append]

theorem WFO_fromOutput (o : Output) : (CoinEntry.fromOutput o).WFO := by
  refine ⟨compressOutput o, o, rfl, rfl, ?_, ?_⟩
  · intro rest
    exact skip_compressOutput o rest
  · intro rest
    exact decompressOutput_compress o rest

/-! Container lemmas: get, length, cleanup. -/

theorem get_of_ge_length (c : Coins) {i : Nat} (h : c.outputs.length ≤ i) : c.get i = none := by
  rw [Coins.get, List.getD_eq_getElem?_getD, List.getElem?_eq_none h]
  rfl

theorem isUnspent_false_of_get_none {c : Coins} {i : Nat} (h : c.get i = none) :
    c.isUnspent i = false := by
  rw [Coins.isUnspent, h]

theorem lengthFrom_le (c : Coins) (n : Nat) : lengthFrom c n ≤ n := by
  induction n with
  | zero => exact Nat.le_refl 0
  | succ n ih =>
    simp only [lengthFrom]
    by_cases h : c.isUnspent n
    · simp [h]
    · simp only [h, if_false, Bool.false_eq_true]
      omega

theorem lengthFrom_unspent_false (c : Coins) (n : Nat) :
    ∀ k, lengthFrom c n ≤ k → k < n → c.isUnspent k = false := by
  induction n with
  | zero => intro k h1 h2; omega
  | succ n ih =>
    intro k h1 h2
    simp only [lengthFrom] at h1
    by_cases h : c.isUnspent n
    · rw [if_pos h] at h1
      omega
    · rw [if_neg h] at h1
      by_cases hk : k < n
      · exact ih k h1 hk
      · have hkn : k = n := by omega
        subst hkn
        simpa using h

theorem isUnspent_false_of_length_le (c : Coins) {k : Nat} (h : c.length ≤ k) :
    c.isUnspent k = false := by
  by_cases hk : k < c.outputs.length
  · exact lengthFrom_unspent_false c c.outputs.length k h hk
  · exact isUnspent_false_of_get_none (get_of_ge_length c (by omega))

theorem lengthFrom_last_unspent (c : Coins) (n : Nat) :
    lengthFrom c n ≠ 0 → c.isUnspent (lengthFrom c n - 1) = true := by
  induction n with
  | zero => intro h0; simp [lengthFrom] at h0
  | succ n ih =>
    intro h0
    simp only [lengthFrom] at h0 ⊢
    by_cases hu : c.isUnspent n
    · rw [if_pos hu]
      simpa using hu
    · rw [if_neg hu] at h0 ⊢
      exact ih h0

theorem isUnspent_length_sub_one (c : Coins) (h : c.length ≠ 0) :
    c.isUnspent (c.length - 1) = true :=
  lengthFrom_last_unspent c c.outputs.length h

theorem length_congr {c₁ c₂ : Coins} (h : ∀ i, c₁.isUnspent i = c₂.isUnspent i) :
    c₁.length = c₂.length := by
  rcases Nat.lt_trichotomy c₁.length c₂.length with hlt | heq | hgt
  · exfalso
    have h2 : c₂.isUnspent (c₂.length - 1) = true := isUnspent_length_sub_one c₂ (by omega)
    have h1 : c₁.isUnspent (c₂.length - 1) = false := isUnspent_false_of_length_le c₁ (by omega)
    rw [h] at h1
    rw [h1] at h2
    exact Bool.false_ne_true h2
  · exact heq
  · exfalso
    have h2 : c₁.isUnspent (c₁.length - 1) = true := isUnspent_length_sub_one c₁ (by omega)
    have h1 : c₂.isUnspent (c₁.length - 1) = false := isUnspent_false_of_length_le c₂ (by omega)
    rw [← h] at h1
    rw [h1] at h2
    exact Bool.false_ne_true h2

theorem cleanupLen_le (l : List (Option CoinEntry)) (n : Nat) : cleanupLen l n ≤ n := by
  induction n with
  | zero => exact Nat.le_refl 0
  | succ n ih =>
    simp only [cleanupLen]
    by_cases h : (l.getD n none).isSome
    · rw [if_pos h]
    · rw [if_neg h]
      omega

theorem cleanupLen_getD_none (l : List (Option CoinEntry)) (n : Nat) :
    ∀ k, cleanupLen l n ≤ k → k < n → l.getD k none = none := by
  induction n with
  | zero => intro k h1 h2; omega
  | succ n ih =>
    intro k h1 h2
    simp only [cleanupLen] at h1
    by_cases h : (l.getD n none).isSome
    · rw [if_pos h] at h1
      omega
    · rw [if_neg h] at h1
      by_cases hk : k < n
      · exact ih k h1 hk
      · have hkn : k = n := by omega
        subst hkn
        cases hx : l.getD k none with
        | none => rfl
        | some e => rw [hx] at h; simp at h

theorem cleanup_get (c : Coins) (i : Nat) : (Coins.cleanup c).get i = c.get i := by
  show (c.outputs.take (cleanupLen c.outputs c.outputs.length)).getD i none =
    c.outputs.getD i none
  by_cases h : i < cleanupLen c.outputs c.outputs.length
  · rw [List.getD_eq_getElem?_getD, List.getD_eq_getElem?_getD, List.getElem?_take_of_lt h]
  · rw [List.getD_eq_getElem?_getD, List.getD_eq_getElem?_getD]
    have h1 : (c.outputs.take (cleanupLen c.outputs c.outputs.length))[i]? = none := by
      apply List.getElem?_eq_none
      simp only [List.length_take]
      omega
    rw [h1]
    by_cases h2 : i < c.outputs.length
    · have h3 : c.outputs.getD i none = none :=
        cleanupLen_getD_none c.outputs c.outputs.length i (by omega) h2
      rw [List.getD_eq_getElem?_getD] at h3
      exact h3.symm
    · rw [List.getElem?_eq_none (by omega)]

theorem cleanup_isUnspent (c : Coins) (i : Nat) :
    (Coins.cleanup c).isUnspent i = c.isUnspent i := by
  simp only [Coins.isUnspent, cleanup_get]

theorem cleanup_version (c : Coins) : (Coins.cleanup c).version = c.version := rfl

theorem cleanup_hash (c : Coins) : (Coins.cleanup c).hash = c.hash := rfl

theorem cleanup_height (c : Coins) : (Coins.cleanup c).height = c.height := rfl

theorem cleanup_coinbase (c : Coins) : (Coins.cleanup c).coinbase = c.coinbase := rfl

theorem cleanup_length (c : Coins) : (Coins.cleanup c).length = c.length :=
  length_congr (fun i => cleanup_isUnspent c i)

/-! Spent-field bits. -/

theorem foldl_orbit_testBit (f : Nat → Bool) (k : Nat) :
    ∀ (l : List Nat) (init : Nat),
      ((l.foldl (fun ch j => if f j then ch ||| (1 <<< j) else ch) init).testBit k)
        = (init.testBit k || (decide (k ∈ l) && f k)) := by
  intro l
  induction l with
  | nil => intro init; simp
  | cons x xs ih =>
    intro init
    simp only [List.foldl_cons]
    rw [ih]
    by_cases hf : f x
    · rw [if_pos hf]
      by_cases hxk : x = k
      · subst hxk
        simp [Nat.testBit_or, Nat.one_shiftLeft, Nat.testBit_two_pow, hf]
      · have hd : decide (k = x) = false := decide_eq_false (fun hk => hxk hk.symm)
        simp [Nat.testBit_or, Nat.one_shiftLeft, Nat.testBit_two_pow, hxk, List.mem_cons, hd]
    · rw [if_neg hf]
      by_cases hxk : x = k
      · subst hxk
        simp [List.mem_cons, hf]
      · simp only [List.mem_cons]
        have : (k = x ∨ k ∈ xs) ↔ k ∈ xs := by
          constructor
          · rintro (rfl | hk)
            · exact absurd rfl hxk
            · exact hk
          · exact Or.inr
        rw [decide_eq_decide.mpr this]
  
theorem spentByte_testBit (c : Coins) (len i j : Nat) (hj : j < 8) :
    (spentByte c len i).testBit j =
      (decide (2 + i * 8 + j < len) && c.isUnspent (2 + i * 8 + j)) := by
  unfold spentByte
  rw [foldl_orbit_testBit]
  simp [List.mem_range, hj]

theorem spentByte_congr {c₁ c₂ : Coins} (len i : Nat)
    (h : ∀ k, c₁.isUnspent k = c₂.isUnspent k) :
    spentByte c₁ len i = spentByte c₂ len i := by
  unfold spentByte
  congr 1
  funext ch j
  rw [h]

theorem spentField_congr {c₁ c₂ : Coins} (size len : Nat)
    (h : ∀ k, c₁.isUnspent k = c₂.isUnspent k) :
    c₁.spentField size len = c₂.spentField size len := by
  unfold Coins.spentField
  congr 1
  funext i
  exact spentByte_congr len i h

theorem flatMap_fixed_getD {α : Type} (F : Nat → List α) (d : α)
    (hF : ∀ a, (F a).length = 8) :
    ∀ (l : List Nat) (i j : Nat), j < 8 → i < l.length →
      (l.flatMap F).getD (i * 8 + j) d = (F (l.getD i 0)).getD j d := by
  intro l
  induction l with
  | nil => intro i j hj hi; simp at hi
  | cons x xs ih =>
    intro i j hj hi
    simp only [List.flatMap_cons]
    cases i with
    | zero =>
      simp only [Nat.zero_mul, Nat.zero_add]
      rw [List.getD_eq_getElem?_getD, List.getElem?_append_left (by rw [hF]; omega)]
      rw [← List.getD_eq_getElem?_getD]
      rfl
    | succ i =>
      have harith : (i + 1) * 8 + j = (F x).length + (i * 8 + j) := by rw [hF]; ring
      rw [List.getD_eq_getElem?_getD, harith, List.getElem?_append_right (by omega)]
      have h2 : (F x).length + (i * 8 + j) - (F x).length = i * 8 + j := by omega
      rw [h2, ← List.getD_eq_getElem?_getD, ih i j hj (by simpa using hi)]
      rfl

theorem extBits_getD (data : List Nat) (offset size i j : Nat) (hi : i < size) (hj : j < 8) :
    (extBits data offset size).getD (i * 8 + j) false =
      ((data.getD (offset + i) 0) &&& (1 <<< j) != 0) := by
  unfold extBits
  rw [flatMap_fixed_getD
    (fun a => (List.range 8).map (fun j => (data.getD (offset + a) 0) &&& (1 <<< j) != 0))
    false (by intro a; simp) (List.range size) i j hj (by simpa using hi)]
  have hr : (List.range size).getD i 0 = i := by
    rw [List.getD_eq_getElem?_getD, List.getElem?_range hi]
    rfl
  rw [hr, List.getD_eq_getElem?_getD, List.getElem?_map, List.getElem?_range hj]
  rfl

theorem and_shift_ne_zero (b j : Nat) : (b &&& (1 <<< j) != 0) = b.testBit j := by
  rw [Nat.one_shiftLeft, and_two_pow_eq]
  by_cases h : b.testBit j
  · have h2 : (2 : Nat) ^ j ≠ 0 := (Nat.two_pow_pos j).ne'
    simp [h, h2]
  · simp [h]

theorem flatMap_fixed_length {α : Type} (F : Nat → List α) (hF : ∀ a, (F a).length = 8) :
    ∀ l : List Nat, (l.flatMap F).length = 8 * l.length := by
  intro l
  induction l with
  | nil => simp
  | cons x xs ih =>
    simp only [List.flatMap_cons, List.length_append, ih, hF, List.length_cons]
    ring

theorem extBits_length (data : List Nat) (offset size : Nat) :
    (extBits data offset size).length = 8 * size := by
  unfold extBits
  rw [flatMap_fixed_length _ (by intro a; simp)]
  simp

/-! Header code lemmas. -/

theorem code_bits {b0 b1 b2 : Bool} {S code : Nat}
    (hc : code = (if b0 then 1 else 0) + (if b1 then 2 else 0) + (if b2 then 4 else 0) + 8 * S) :
    code &&& 1 = (if b0 then 1 else 0) ∧ code &&& 2 = (if b1 then 2 else 0) ∧
      code &&& 4 = (if b2 then 4 else 0) ∧ (code &&& 6 = 0 ↔ b1 = false ∧ b2 = false) ∧
      code / 8 = S := by
  have key : ∀ y : Nat, y < 8 → code &&& y =
      ((if b0 then 1 else 0) + (if b1 then 2 else 0) + (if b2 then 4 else 0)) &&& y := by
    intro y hy
    rw [and_small_eq_mod code y hy]
    have hm : code % 8 = ((if b0 then 1 else 0) + (if b1 then 2 else 0) +
        (if b2 then 4 else 0)) % 8 := by
      subst hc
      cases b0 <;> cases b1 <;> cases b2 <;> simp
    rw [hm, ← and_small_eq_mod _ y hy]
  refine ⟨?_, ?_, ?_, ?_, ?_⟩
  · rw [key 1 (by omega)]
    cases b0 <;> cases b1 <;> cases b2 <;> decide
  · rw [key 2 (by omega)]
    cases b0 <;> cases b1 <;> cases b2 <;> decide
  · rw [key 4 (by omega)]
    cases b0 <;> cases b1 <;> cases b2 <;> decide
  · rw [key 6 (by omega)]
    cases b0 <;> cases b1 <;> cases b2 <;> decide
  · subst hc
    cases b0 <;> cases b1 <;> cases b2 <;> simp <;> omega

theorem header_spec {c : Coins} {len size code : Nat}
    (h : c.header len size = some code) :
    len ≠ 0 ∧
    ∃ S, code = (if c.coinbase then 1 else 0) + (if c.isUnspent 0 then 2 else 0) +
        (if c.isUnspent 1 then 4 else 0) + 8 * S ∧
      ((c.isUnspent 0 = false ∧ c.isUnspent 1 = false) → (size ≠ 0 ∧ S = size - 1)) ∧
      ((c.isUnspent 0 = true ∨ c.isUnspent 1 = true) → S = size) := by
  unfold Coins.header at h
  by_cases hlen : len = 0
  · rw [if_pos hlen] at h
    exact absurd h (by simp)
  · rw [if_neg hlen] at h
    refine ⟨hlen, ?_⟩
    by_cases hfs : (!c.isUnspent 0 && !c.isUnspent 1) = true
    · rw [if_pos hfs] at h
      have hf : c.isUnspent 0 = false := by
        cases h0 : c.isUnspent 0 <;> simp_all
      have hs : c.isUnspent 1 = false := by
        cases h1 : c.isUnspent 1 <;> simp_all
      by_cases hsz : size = 0
      · rw [if_pos hsz] at h
        exact absurd h (by simp)
      · rw [if_neg hsz] at h
        injection h with h
        refine ⟨size - 1, ?_, fun _ => ⟨hsz, rfl⟩, ?_⟩
        · rw [← h, hf, hs]
          simp [Nat.add_comm]
        · intro hor
          rcases hor with h0 | h1
          · rw [hf] at h0
            exact absurd h0 (by simp)
          · rw [hs] at h1
            exact absurd h1 (by simp)
    · rw [if_neg hfs] at h
      injection h with h
      refine ⟨size, ?_, ?_, fun _ => rfl⟩
      · rw [← h]
        ring
      · intro ⟨hf, hs⟩
        rw [hf, hs] at hfs
        exact absurd rfl hfs

theorem header_recover {c : Coins} {len size code : Nat}
    (h : c.header len size = some code) :
    recoverSize code = size ∧ (code &&& 1 != 0) = c.coinbase ∧
      (code &&& 2 != 0) = c.isUnspent 0 ∧ (code &&& 4 != 0) = c.isUnspent 1 := by
  obtain ⟨hlen, S, hc, hboth, hone⟩ := header_spec h
  obtain ⟨ha1, ha2, ha4, ha6, hd⟩ := code_bits hc
  refine ⟨?_, ?_, ?_, ?_⟩
  · unfold recoverSize
    by_cases hb : c.isUnspent 0 = false ∧ c.isUnspent 1 = false
    · obtain ⟨hsz, hS⟩ := hboth hb
      rw [if_pos (ha6.mpr hb), hd, hS]
      omega
    · have hor : c.isUnspent 0 = true ∨ c.isUnspent 1 = true := by
        cases h0 : c.isUnspent 0 <;> cases h1 : c.isUnspent 1 <;> simp_all
      have h6 : ¬ (code &&& 6 = 0) := fun hz => hb (ha6.mp hz)
      rw [if_neg h6, hd, hone hor]
  · rw [ha1]
    cases c.coinbase <;> simp
  · rw [ha2]
    cases h0 : c.isUnspent 0 <;> simp
  · rw [ha4]
    cases h1 : c.isUnspent 1 <;> simp

theorem header_congr {c₁ c₂ : Coins} (len size : Nat)
    (hcb : c₁.coinbase = c₂.coinbase) (h : ∀ i, c₁.isUnspent i = c₂.isUnspent i) :
    c₁.header len size = c₂.header len size := by
  unfold Coins.header
  rw [hcb, h 0, h 1]

/-! Blob lists and the slot bytes. -/

theorem blobFlatten_nil : blobFlatten [] = [] := rfl

theorem blobFlatten_cons_none (ps : List (Option (List Nat))) :
    blobFlatten (none :: ps) = blobFlatten ps := by
  simp [blobFlatten]

theorem blobFlatten_cons_some (B : List Nat) (ps : List (Option (List Nat))) :
    blobFlatten (some B :: ps) = B ++ blobFlatten ps := by
  simp [blobFlatten]

theorem blobFlatten_append (ps1 ps2 : List (Option (List Nat))) :
    blobFlatten (ps1 ++ ps2) = blobFlatten ps1 ++ blobFlatten ps2 := by
  simp [blobFlatten]

theorem WF_get {c : Coins} (hWF : c.WF) {i : Nat} {e : CoinEntry}
    (hg : c.get i = some e) (hsp : e.spent = false) : e.WFO := by
  apply hWF (some e) ?_ e rfl hsp
  rw [Coins.get, List.getD_eq_getElem?_getD] at hg
  cases hx : c.outputs[i]? with
  | none => rw [hx] at hg; simp at hg
  | some en =>
    rw [hx] at hg
    simp only [Option.getD_some] at hg
    subst hg
    exact List.getElem?_mem hx

theorem slotBytes_none_of_not_unspent {c : Coins} {i : Nat} (h : c.isUnspent i = false) :
    slotBytes c i = none := by
  cases hg : c.get i with
  | none => simp [slotBytes, hg]
  | some e =>
    unfold Coins.isUnspent at h
    rw [hg] at h
    have hsp : e.spent = true := by simpa using h
    simp [slotBytes, hg, hsp]

theorem slotBytes_some_of_unspent {c : Coins} (hWF : c.WF) {i : Nat}
    (h : c.isUnspent i = true) :
    ∃ B o, slotBytes c i = some B ∧ SkipStable B ∧ DecodesTo B o ∧
      ∃ e, c.get i = some e ∧ e.spent = false ∧ e.toWriter = some B ∧ e.toOutput = some o := by
  unfold Coins.isUnspent at h
  cases hg : c.get i with
  | none => rw [hg] at h; simp at h
  | some e =>
    rw [hg] at h
    have hsp : e.spent = false := by simpa using h
    obtain ⟨B, o, hw, ho, hskip, hdec⟩ := WF_get hWF hg hsp
    have hns : ¬ e.spent = true := by rw [hsp]; simp
    refine ⟨B, o, ?_, hskip, hdec, ?_⟩
    · simp only [slotBytes, hg, if_neg hns, hw]
    · exact ⟨e, rfl, hsp, hw, ho⟩

theorem slotBytes_isSome {c : Coins} (hWF : c.WF) (i : Nat) :
    (slotBytes c i).isSome = c.isUnspent i := by
  cases hu : c.isUnspent i with
  | false => rw [slotBytes_none_of_not_unspent hu]; rfl
  | true =>
    obtain ⟨B, o, hB, _⟩ := slotBytes_some_of_unspent hWF hu
    rw [hB]
    rfl

theorem slotBytes_none_of_ge_length (c : Coins) {i : Nat} (h : c.length ≤ i) :
    slotBytes c i = none :=
  slotBytes_none_of_not_unspent (isUnspent_false_of_length_le c h)

theorem tailFrom_eq (c : Coins) (hWF : c.WF) :
    ∀ is : List Nat, tailFrom c is = some (blobFlatten (is.map (fun i => slotBytes c i))) := by
  intro is
  induction is with
  | nil => rfl
  | cons i is ih =>
    have hbf : blobFlatten (slotBytes c i :: is.map (fun i => slotBytes c i)) =
        (slotBytes c i).getD [] ++ blobFlatten (is.map (fun i => slotBytes c i)) := by
      simp [blobFlatten]
    simp only [List.map_cons]
    rw [hbf]
    cases hg : c.get i with
    | none =>
      have hsb : slotBytes c i = none := by simp [slotBytes, hg]
      simp only [tailFrom, hg, ih, hsb]
      simp
    | some e =>
      by_cases hsp : e.spent = true
      · have hsb : slotBytes c i = none := by simp [slotBytes, hg, hsp]
        simp only [tailFrom, hg, if_pos hsp, ih, hsb]
        simp
      · have hspf : e.spent = false := by simpa using hsp
        obtain ⟨B, o, hw, ho, _, _⟩ := WF_get hWF hg hspf
        have hsb : slotBytes c i = some B := by
          simp only [slotBytes, hg, if_neg hsp, hw]
        simp only [tailFrom, hg, if_neg hsp, hw, ih, hsb]
        rfl

theorem size_ne_zero_of_low_spent {c : Coins} (hne : c.length ≠ 0)
    (hf : c.isUnspent 0 = false) (hs : c.isUnspent 1 = false) :
    (c.length + 5) / 8 ≠ 0 := by
  have hlast : c.isUnspent (c.length - 1) = true := isUnspent_length_sub_one c hne
  have h3 : 3 ≤ c.length := by
    by_contra hcon
    push_neg at hcon
    rcases (by omega : c.length = 1 ∨ c.length = 2) with h | h
    · rw [h] at hlast
      norm_num at hlast
      rw [hf] at hlast
      exact Bool.false_ne_true hlast
    · rw [h] at hlast
      norm_num at hlast
      rw [hs] at hlast
      exact Bool.false_ne_true hlast
  omega

theorem header_some {c : Coins} (hne : c.length ≠ 0) :
    ∃ code, c.header c.length ((c.length + 5) / 8) = some code := by
  unfold Coins.header
  rw [if_neg hne]
  by_cases hfs : (!c.isUnspent 0 && !c.isUnspent 1) = true
  · rw [if_pos hfs]
    have hf : c.isUnspent 0 = false := by
      cases h0 : c.isUnspent 0 <;> simp_all
    have hs : c.isUnspent 1 = false := by
      cases h1 : c.isUnspent 1 <;> simp_all
    rw [if_neg (size_ne_zero_of_low_spent hne hf hs)]
    exact ⟨_, rfl⟩
  · rw [if_neg hfs]
    exact ⟨_, rfl⟩

theorem toRaw_structure (c : Coins) (hWF : c.WF) (hne : c.length ≠ 0) :
    ∃ code, c.header c.length ((c.length + 5) / 8) = some code ∧
      c.toRaw = some (putVarint c.version ++ putU32 c.height ++ putVarint code ++
        c.spentField ((c.length + 5) / 8) c.length ++
        blobFlatten ((List.range c.length).map (fun i => slotBytes c i))) := by
  obtain ⟨code, hcode⟩ := header_some hne
  refine ⟨code, hcode, ?_⟩
  unfold Coins.toRaw
  simp only [hcode, tailFrom_eq c hWF]

/-! Tiling the tail. -/

theorem tiledEntries_length (data : List Nat) :
    ∀ (ps : List (Option (List Nat))) (pos : Nat),
      (tiledEntries data ps pos).length = ps.length := by
  intro ps
  induction ps with
  | nil => intro pos; rfl
  | cons p ps ih =>
    intro pos
    cases p <;> simp [tiledEntries, ih]

theorem tiledEntries_append (data : List Nat) :
    ∀ (ps1 ps2 : List (Option (List Nat))) (pos : Nat),
      tiledEntries data (ps1 ++ ps2) pos =
        tiledEntries data ps1 pos ++ tiledEntries data ps2 (pos + (blobFlatten ps1).length) := by
  intro ps1
  induction ps1 with
  | nil =>
    intro ps2 pos
    simp [tiledEntries, blobFlatten]
  | cons p ps ih =>
    intro ps2 pos
    cases p with
    | none =>
      show tiledEntries data (none :: (ps ++ ps2)) pos = _
      simp only [tiledEntries, ih, blobFlatten_cons_none, List.cons_append]
    | some B =>
      show tiledEntries data (some B :: (ps ++ ps2)) pos = _
      simp only [tiledEntries, ih, blobFlatten_cons_some, List.cons_append,
        List.length_append]
      rw [Nat.add_assoc]

theorem readEntries_tiled (data : List Nat) :
    ∀ (ps : List (Option (List Nat))) (pos : Nat) (suffix : List Nat),
      data.drop pos = blobFlatten ps ++ suffix →
      (∀ B, some B ∈ ps → SkipStable B) →
      readEntries data (ps.map Option.isSome) pos =
        some (tiledEntries data ps pos, pos + (blobFlatten ps).length) := by
  intro ps
  induction ps with
  | nil =>
    intro pos suffix hdrop hstab
    simp [readEntries, tiledEntries, blobFlatten]
  | cons p ps ih =>
    intro pos suffix hdrop hstab
    cases p with
    | none =>
      rw [blobFlatten_cons_none] at hdrop
      simp only [List.map_cons, Option.isSome_none, readEntries, Bool.false_eq_true, if_false]
      rw [ih pos suffix hdrop (fun B hB => hstab B (List.mem_cons_of_mem _ hB))]
      simp [tiledEntries, blobFlatten_cons_none]
    | some B =>
      rw [blobFlatten_cons_some, List.append_assoc] at hdrop
      have hskip : skipOutput (data.drop pos) = some B.length := by
        rw [hdrop]
        exact hstab B (List.mem_cons_self _ _) _
      have hdrop2 : data.drop (pos + B.length) = blobFlatten ps ++ suffix := by
        rw [← List.drop_drop, hdrop, List.drop_left]
      simp only [List.map_cons, Option.isSome_some, readEntries, if_true,
        CoinEntry.fromReaderAt, hskip]
      rw [ih (pos + B.length) suffix hdrop2 (fun B2 hB => hstab B2 (List.mem_cons_of_mem _ hB))]
      simp only [tiledEntries, blobFlatten_cons_some, List.length_append]
      rw [Nat.add_assoc]

theorem tiledEntries_getD_gap (data : List Nat) :
    ∀ (ps : List (Option (List Nat))) (pos k : Nat),
      ((tiledEntries data ps pos).getD k none = none ↔ ps.getD k none = none) := by
  intro ps
  induction ps with
  | nil => intro pos k; simp [tiledEntries]
  | cons p ps ih =>
    intro pos k
    cases p with
    | none =>
      cases k with
      | zero => simp [tiledEntries]
      | succ k =>
        simp only [tiledEntries, List.getD_cons_succ]
        exact ih pos k
    | some B =>
      cases k with
      | zero => simp [tiledEntries]
      | succ k =>
        simp only [tiledEntries, List.getD_cons_succ]
        exact ih (pos + B.length) k

theorem tiledEntries_getD_some (data : List Nat) :
    ∀ (ps : List (Option (List Nat))) (pos k : Nat) (suffix B : List Nat),
      data.drop pos = blobFlatten ps ++ suffix →
      ps.getD k none = some B →
      ∃ off rest, (tiledEntries data ps pos).getD k none =
          some { offset := off, size := B.length, raw := some data, output := none,
                 spent := false } ∧
        data.drop off = B ++ rest := by
  intro ps
  induction ps with
  | nil =>
    intro pos k suffix B hdrop hk
    simp at hk
  | cons p ps ih =>
    intro pos k suffix B hdrop hk
    cases p with
    | none =>
      cases k with
      | zero => simp at hk
      | succ k =>
        rw [List.getD_cons_succ] at hk
        rw [blobFlatten_cons_none] at hdrop
        obtain ⟨off, rest, h1, h2⟩ := ih pos k suffix B hdrop hk
        refine ⟨off, rest, ?_, h2⟩
        simpa [tiledEntries] using h1
    | some B0 =>
      rw [blobFlatten_cons_some, List.append_assoc] at hdrop
      cases k with
      | zero =>
        rw [List.getD_cons_zero] at hk
        injection hk with hk
        subst hk
        exact ⟨pos, blobFlatten ps ++ suffix, by simp [tiledEntries], hdrop⟩
      | succ k =>
        rw [List.getD_cons_succ] at hk
        have hdrop2 : data.drop (pos + B0.length) = blobFlatten ps ++ suffix := by
          rw [← List.drop_drop, hdrop, List.drop_left]
        obtain ⟨off, rest, h1, h2⟩ := ih (pos + B0.length) k suffix B hdrop2 hk
        refine ⟨off, rest, ?_, h2⟩
        simpa [tiledEntries] using h1

theorem parseWalk_tiled (data : List Nat) :
    ∀ (ps : List (Option (List Nat))) (pos : Nat) (suffix : List Nat) (k : Nat),
      data.drop pos = blobFlatten ps ++ suffix →
      (∀ B, some B ∈ ps → SkipStable B ∧ ∃ o, DecodesTo B o) →
      parseWalk data (ps.map Option.isSome) pos k =
        some (((tiledEntries data ps pos).getD k none).bind CoinEntry.toOutput) := by
  intro ps
  induction ps with
  | nil =>
    intro pos suffix k hdrop hstab
    simp [parseWalk, tiledEntries]
  | cons p ps ih =>
    intro pos suffix k hdrop hstab
    cases p with
    | none =>
      rw [blobFlatten_cons_none] at hdrop
      cases k with
      | zero => simp [parseWalk, tiledEntries]
      | succ k =>
        simp only [List.map_cons, Option.isSome_none, parseWalk, Bool.false_eq_true, if_false]
        rw [if_neg (by omega)]
        simp only [Nat.add_sub_cancel]
        rw [ih pos suffix k hdrop (fun B hB => hstab B (List.mem_cons_of_mem _ hB))]
        simp [tiledEntries]
    | some B =>
      obtain ⟨hskipS, o, hdec⟩ := hstab B (List.mem_cons_self _ _)
      rw [blobFlatten_cons_some, List.append_assoc] at hdrop
      cases k with
      | zero =>
        have hdc : decompressOutput (data.drop pos) = some (o, B.length) := by
          rw [hdrop]
          exact hdec _
        have htoOut : (CoinEntry.mk pos B.length (some data) none false).toOutput = some o := by
          simp only [CoinEntry.toOutput, hdc]
        simp [parseWalk, tiledEntries, hdc, htoOut]
      | succ k =>
        have hsk : skipOutput (data.drop pos) = some B.length := by
          rw [hdrop]
          exact hskipS _
        have hdrop2 : data.drop (pos + B.length) = blobFlatten ps ++ suffix := by
          rw [← List.drop_drop, hdrop, List.drop_left]
        simp only [List.map_cons, Option.isSome_some, parseWalk, if_true]
        rw [if_neg (by omega), hsk]
        simp only [Nat.add_sub_cancel]
        rw [ih (pos + B.length) suffix k hdrop2
          (fun B2 hB => hstab B2 (List.mem_cons_of_mem _ hB))]
        simp [tiledEntries]

/-! Encode layout. -/

theorem spentField_length (c : Coins) (size len : Nat) :
    (c.spentField size len).length = size := by
  simp [Coins.spentField]

theorem putU32_length (n : Nat) : (putU32 n).length = 4 := rfl

theorem psFull_eq (c : Coins) :
    psFull c = [slotBytes c 0, slotBytes c 1] ++
      (List.range (8 * ((c.length + 5) / 8))).map (fun k => slotBytes c (2 + k)) := by
  unfold psFull
  rw [List.range_add, List.map_append, List.map_map]
  rfl

theorem blobFlatten_all_none :
    ∀ ps : List (Option (List Nat)), (∀ p ∈ ps, p = none) → blobFlatten ps = [] := by
  intro ps
  induction ps with
  | nil => intro _; rfl
  | cons p ps ih =>
    intro h
    have hp : p = none := h p (List.mem_cons_self _ _)
    subst hp
    rw [blobFlatten_cons_none]
    exact ih (fun q hq => h q (List.mem_cons_of_mem _ hq))

theorem tail_eq_blobFlatten_psFull (c : Coins) :
    blobFlatten ((List.range c.length).map (fun i => slotBytes c i)) =
      blobFlatten (psFull c) := by
  unfold psFull
  have hsplit : 2 + 8 * ((c.length + 5) / 8) =
      c.length + (2 + 8 * ((c.length + 5) / 8) - c.length) := by omega
  rw [hsplit, List.range_add, List.map_append, blobFlatten_append]
  have hnil : blobFlatten (((List.range (2 + 8 * ((c.length + 5) / 8) - c.length)).map
      (c.length + ·)).map (fun i => slotBytes c i)) = [] := by
    apply blobFlatten_all_none
    intro p hp
    rw [List.map_map] at hp
    obtain ⟨k, hk, hpk⟩ := List.mem_map.mp hp
    rw [← hpk]
    show slotBytes c (c.length + k) = none
    exact slotBytes_none_of_ge_length c (by omega)
  rw [hnil, List.append_nil]

theorem slotBytes_stable {c : Coins} (hWF : c.WF) {i : Nat} {B : List Nat}
    (h : slotBytes c i = some B) :
    SkipStable B ∧ ∃ o, DecodesTo B o ∧
      ∃ e, c.get i = some e ∧ e.spent = false ∧ e.toWriter = some B ∧ e.toOutput = some o := by
  cases hg : c.get i with
  | none =>
    simp only [slotBytes, hg] at h
    exact absurd h (by simp)
  | some e =>
    simp only [slotBytes, hg] at h
    by_cases hsp : e.spent = true
    · rw [if_pos hsp] at h
      exact absurd h (by simp)
    · rw [if_neg hsp] at h
      have hspf : e.spent = false := by simpa using hsp
      obtain ⟨B2, o, hw, ho, hskip, hdec⟩ := WF_get hWF hg hspf
      rw [hw] at h
      injection h with h
      subst h
      exact ⟨hskip, o, hdec, e, rfl, hspf, hw, ho⟩

theorem psFull_stable {c : Coins} (hWF : c.WF) :
    ∀ B, some B ∈ psFull c → SkipStable B ∧ ∃ o, DecodesTo B o := by
  intro B hB
  unfold psFull at hB
  obtain ⟨k, hk, hslot⟩ := List.mem_map.mp hB
  obtain ⟨hs, o, hd, _⟩ := slotBytes_stable hWF hslot
  exact ⟨hs, o, hd⟩

theorem ext_of_getD {α : Type} (l1 l2 : List α) (d : α) (hlen : l1.length = l2.length)
    (h : ∀ n, n < l1.length → l1.getD n d = l2.getD n d) : l1 = l2 := by
  apply List.ext_getElem?
  intro n
  by_cases hn : n < l1.length
  · have h1 : l1[n]? = some l1[n] := List.getElem?_eq_getElem hn
    have h2 : l2[n]? = some l2[n] := List.getElem?_eq_getElem (by omega)
    rw [h1, h2]
    have h3 := h n hn
    rw [List.getD_eq_getElem?_getD, List.getD_eq_getElem?_getD, h1, h2] at h3
    simp only [Option.getD_some] at h3
    rw [h3]
  · rw [List.getElem?_eq_none (by omega), List.getElem?_eq_none (by omega)]

theorem decode_headers (buf : List Nat) (v hgt code sz : Nat) (F T : List Nat)
    (hbuf : buf = putVarint v ++ putU32 hgt ++ putVarint code ++ F ++ T)
    (hh : hgt < 2 ^ 32) (hFlen : F.length = sz) :
    readVarintAt buf 0 = some (v, (putVarint v).length) ∧
    readU32At buf (putVarint v).length = some (hgt, (putVarint v).length + 4) ∧
    readVarintAt buf ((putVarint v).length + 4) =
      some (code, (putVarint v).length + 4 + (putVarint code).length) ∧
    buf.drop ((putVarint v).length + 4 + (putVarint code).length) = F ++ T ∧
    buf.drop ((putVarint v).length + 4 + (putVarint code).length + sz) = T ∧
    buf.length = (putVarint v).length + 4 + (putVarint code).length + sz + T.length := by
  subst hbuf
  have hassoc : putVarint v ++ putU32 hgt ++ putVarint code ++ F ++ T =
      putVarint v ++ (putU32 hgt ++ (putVarint code ++ (F ++ T))) := by
    simp [List.append_assoc]
  have hd1 : (putVarint v ++ putU32 hgt ++ putVarint code ++ F ++ T).drop
      (putVarint v).length = putU32 hgt ++ (putVarint code ++ (F ++ T)) := by
    rw [hassoc, List.drop_left]
  have hd2 : (putVarint v ++ putU32 hgt ++ putVarint code ++ F ++ T).drop
      ((putVarint v).length + 4) = putVarint code ++ (F ++ T) := by
    rw [← List.drop_drop, hd1, List.drop_left' (putU32_length hgt)]
  have hd3 : (putVarint v ++ putU32 hgt ++ putVarint code ++ F ++ T).drop
      ((putVarint v).length + 4 + (putVarint code).length) = F ++ T := by
    rw [← List.drop_drop, hd2, List.drop_left]
  have hd4 : (putVarint v ++ putU32 hgt ++ putVarint code ++ F ++ T).drop
      ((putVarint v).length + 4 + (putVarint code).length + sz) = T := by
    rw [← List.drop_drop, hd3, List.drop_left' hFlen]
  refine ⟨?_, ?_, ?_, hd3, hd4, ?_⟩
  · have := readVarintAt_spec (putVarint v ++ putU32 hgt ++ putVarint code ++ F ++ T) 0 v
      (putU32 hgt ++ (putVarint code ++ (F ++ T))) (by rw [List.drop_zero, hassoc])
    simpa using this
  · exact readU32At_spec _ _ hgt _ hd1 hh
  · exact readVarintAt_spec _ _ code _ hd2
  · simp only [List.length_append, putU32_length, hFlen]

theorem spentField_getD (c : Coins) (size len i : Nat) (hi : i < size) :
    (c.spentField size len).getD i 0 = spentByte c len i := by
  unfold Coins.spentField
  rw [List.getD_eq_getElem?_getD, List.getElem?_map, List.getElem?_range hi]
  rfl

theorem extBits_spec (c : Coins) (hWF : c.WF) (buf T : List Nat) (hdrPos size : Nat)
    (_hlen : c.length ≤ 2 + 8 * size)
    (hdF : buf.drop hdrPos = c.spentField size c.length ++ T) :
    extBits buf hdrPos size =
      (List.range (8 * size)).map (fun k => (slotBytes c (2 + k)).isSome) := by
  apply ext_of_getD _ _ false
  · rw [extBits_length]
    simp
  · intro n hn
    rw [extBits_length] at hn
    have hi : n / 8 < size := by omega
    have hj : n % 8 < 8 := by omega
    have hn8 : n / 8 * 8 + n % 8 = n := by omega
    rw [← hn8, extBits_getD buf hdrPos size (n / 8) (n % 8) hi hj]
    have hbyte : buf.getD (hdrPos + n / 8) 0 = spentByte c c.length (n / 8) := by
      have h1 : buf.getD (hdrPos + n / 8) 0 = (buf.drop hdrPos).getD (n / 8) 0 := by
        rw [List.getD_eq_getElem?_getD, List.getD_eq_getElem?_getD, List.getElem?_drop]
      rw [h1, hdF, List.getD_eq_getElem?_getD,
        List.getElem?_append_left (by rw [spentField_length]; omega),
        ← List.getD_eq_getElem?_getD, spentField_getD c size c.length (n / 8) hi]
    rw [hbyte, and_shift_ne_zero, spentByte_testBit c c.length (n / 8) (n % 8) hj]
    have hr : ((List.range (8 * size)).map (fun k => (slotBytes c (2 + k)).isSome)).getD
        (n / 8 * 8 + n % 8) false = (slotBytes c (2 + n)).isSome := by
      rw [hn8, List.getD_eq_getElem?_getD, List.getElem?_map, List.getElem?_range (by omega)]
      rfl
    rw [hr, slotBytes_isSome hWF]
    rw [show 2 + n / 8 * 8 + n % 8 = 2 + n by omega]
    by_cases hlt : 2 + n < c.length
    · simp [hlt]
    · have hu : c.isUnspent (2 + n) = false := isUnspent_false_of_length_le c (by omega)
      simp [hlt, hu]

theorem decode_master (c : Coins) (hash : Nat) (hWF : c.WF) (hne : c.length ≠ 0)
    (hh : c.height < 2 ^ 32) :
    ∃ buf code,
      c.toRaw = some buf ∧
      buf = putVarint c.version ++ putU32 c.height ++ putVarint code ++
        c.spentField ((c.length + 5) / 8) c.length ++
        blobFlatten ((List.range c.length).map (fun i => slotBytes c i)) ∧
      c.header c.length ((c.length + 5) / 8) = some code ∧
      buf.drop (tailStart c code) = blobFlatten (psFull c) ∧
      Coins.fromRaw buf hash =
        some (Coins.cleanup
          { version := c.version, hash := hash, height := c.height, coinbase := c.coinbase,
            outputs := tiledEntries buf (psFull c) (tailStart c code) }) := by
  obtain ⟨code, hcode, hraw⟩ := toRaw_structure c hWF hne
  obtain ⟨hr1, hr2, hr3, hdF, hdT, hblen⟩ :=
    decode_headers
      (putVarint c.version ++ putU32 c.height ++ putVarint code ++
        c.spentField ((c.length + 5) / 8) c.length ++
        blobFlatten ((List.range c.length).map (fun i => slotBytes c i)))
      c.version c.height code ((c.length + 5) / 8)
      (c.spentField ((c.length + 5) / 8) c.length)
      (blobFlatten ((List.range c.length).map (fun i => slotBytes c i)))
      rfl hh (spentField_length c ((c.length + 5) / 8) c.length)
  obtain ⟨hrs, hcb, hb2, hb4⟩ := header_recover hcode
  have hdrop_tail : (putVarint c.version ++ putU32 c.height ++ putVarint code ++
      c.spentField ((c.length + 5) / 8) c.length ++
      blobFlatten ((List.range c.length).map (fun i => slotBytes c i))).drop
        (tailStart c code) = blobFlatten (psFull c) := by
    rw [show tailStart c code = (putVarint c.version).length + 4 + (putVarint code).length +
      (c.length + 5) / 8 from rfl, hdT, tail_eq_blobFlatten_psFull]
  have hps_split : (putVarint c.version ++ putU32 c.height ++ putVarint code ++
      c.spentField ((c.length + 5) / 8) c.length ++
      blobFlatten ((List.range c.length).map (fun i => slotBytes c i))).drop
        ((putVarint c.version).length + 4 + (putVarint code).length + (c.length + 5) / 8) =
      blobFlatten [slotBytes c 0, slotBytes c 1] ++
        (blobFlatten ((List.range (8 * ((c.length + 5) / 8))).map
          (fun k => slotBytes c (2 + k))) ++ []) := by
    rw [hdT, tail_eq_blobFlatten_psFull, psFull_eq, blobFlatten_append, List.append_nil]
  have hstab := psFull_stable hWF
  have hstab01 : ∀ B, some B ∈ [slotBytes c 0, slotBytes c 1] → SkipStable B := by
    intro B hB
    exact (hstab B (by rw [psFull_eq]; exact List.mem_append_left _ hB)).1
  have hstab2 : ∀ B, some B ∈ (List.range (8 * ((c.length + 5) / 8))).map
      (fun k => slotBytes c (2 + k)) → SkipStable B := by
    intro B hB
    exact (hstab B (by rw [psFull_eq]; exact List.mem_append_right _ hB)).1
  have hre1 := readEntries_tiled
    (putVarint c.version ++ putU32 c.height ++ putVarint code ++
      c.spentField ((c.length + 5) / 8) c.length ++
      blobFlatten ((List.range c.length).map (fun i => slotBytes c i)))
    [slotBytes c 0, slotBytes c 1]
    ((putVarint c.version).length + 4 + (putVarint code).length + (c.length + 5) / 8)
    (blobFlatten ((List.range (8 * ((c.length + 5) / 8))).map (fun k => slotBytes c (2 + k)))
      ++ [])
    hps_split hstab01
  have hps2_drop : (putVarint c.version ++ putU32 c.height ++ putVarint code ++
      c.spentField ((c.length + 5) / 8) c.length ++
      blobFlatten ((List.range c.length).map (fun i => slotBytes c i))).drop
        ((putVarint c.version).length + 4 + (putVarint code).length + (c.length + 5) / 8 +
          (blobFlatten [slotBytes c 0, slotBytes c 1]).length) =
      blobFlatten ((List.range (8 * ((c.length + 5) / 8))).map (fun k => slotBytes c (2 + k)))
        ++ [] := by
    rw [← List.drop_drop, hps_split, List.drop_left]
  have hre2 := readEntries_tiled
    (putVarint c.version ++ putU32 c.height ++ putVarint code ++
      c.spentField ((c.length + 5) / 8) c.length ++
      blobFlatten ((List.range c.length).map (fun i => slotBytes c i)))
    ((List.range (8 * ((c.length + 5) / 8))).map (fun k => slotBytes c (2 + k)))
    ((putVarint c.version).length + 4 + (putVarint code).length + (c.length + 5) / 8 +
      (blobFlatten [slotBytes c 0, slotBytes c 1]).length) []
    hps2_drop hstab2
  have hbits01 : [code &&& 2 != 0, code &&& 4 != 0] =
      ([slotBytes c 0, slotBytes c 1].map Option.isSome) := by
    simp only [List.map_cons, List.map_nil, slotBytes_isSome hWF, hb2, hb4]
  have hbits2 : extBits
      (putVarint c.version ++ putU32 c.height ++ putVarint code ++
        c.spentField ((c.length + 5) / 8) c.length ++
        blobFlatten ((List.range c.length).map (fun i => slotBytes c i)))
      ((putVarint c.version).length + 4 + (putVarint code).length) ((c.length + 5) / 8) =
      (((List.range (8 * ((c.length + 5) / 8))).map (fun k => slotBytes c (2 + k))).map
        Option.isSome) := by
    rw [extBits_spec c hWF _ _ _ _ (by omega) hdF, List.map_map]
    rfl
  have hguard : ¬ ((putVarint c.version ++ putU32 c.height ++ putVarint code ++
      c.spentField ((c.length + 5) / 8) c.length ++
      blobFlatten ((List.range c.length).map (fun i => slotBytes c i))).length <
        (putVarint c.version).length + 4 + (putVarint code).length + (c.length + 5) / 8) := by
    rw [hblen]
    omega
  refine ⟨_, code, hraw, rfl, hcode, hdrop_tail, ?_⟩
  simp only [Coins.fromRaw, hr1, hr2, hr3, hrs]
  rw [if_neg hguard]
  simp only [hbits01, hre1, hbits2, hre2, hcb]
  rw [show tailStart c code = (putVarint c.version).length + 4 + (putVarint code).length +
    (c.length + 5) / 8 from rfl, psFull_eq, tiledEntries_append]

/-! The decoded record, slot by slot. -/

theorem psFull_getD (c : Coins) (i : Nat) : (psFull c).getD i none = slotBytes c i := by
  unfold psFull
  by_cases hi : i < 2 + 8 * ((c.length + 5) / 8)
  · rw [List.getD_eq_getElem?_getD, List.getElem?_map, List.getElem?_range (by simpa using hi)]
    rfl
  · rw [List.getD_eq_getElem?_getD, List.getElem?_eq_none (by simp; omega)]
    have hnone : slotBytes c i = none := slotBytes_none_of_ge_length c (by omega)
    rw [hnone]
    rfl

theorem decoded_slot_gap (c : Coins) (buf : List Nat) (pos : Nat) {i : Nat}
    (hu : c.isUnspent i = false) :
    (tiledEntries buf (psFull c) pos).getD i none = none := by
  rw [tiledEntries_getD_gap, psFull_getD]
  exact slotBytes_none_of_not_unspent hu

theorem decoded_slot_live (c : Coins) (buf : List Nat) (pos : Nat)
    (hdrop : buf.drop pos = blobFlatten (psFull c)) {i : Nat} {B : List Nat}
    (hB : slotBytes c i = some B) :
    ∃ e2, (tiledEntries buf (psFull c) pos).getD i none = some e2 ∧
      e2.spent = false ∧ e2.toWriter = some B ∧
      (∀ o, DecodesTo B o → e2.toOutput = some o) := by
  have hps : (psFull c).getD i none = some B := by rw [psFull_getD]; exact hB
  obtain ⟨off, rest, h1, h2⟩ := tiledEntries_getD_some buf (psFull c) pos i [] B
    (by rw [hdrop, List.append_nil]) hps
  refine ⟨_, h1, rfl, ?_, ?_⟩
  · show (CoinEntry.toWriter _) = some B
    simp only [CoinEntry.toWriter]
    rw [h2, List.take_left]
  · intro o ho
    have hdc : decompressOutput (buf.drop off) = some (o, B.length) := by
      rw [h2]
      exact ho rest
    simp only [CoinEntry.toOutput, hdc]

theorem WF_of_get {c : Coins}
    (h : ∀ i e, c.get i = some e → e.spent = false → e.WFO) : c.WF := by
  intro en hen e he hsp
  subst he
  obtain ⟨i, hi⟩ := List.mem_iff_getElem?.mp hen
  apply h i e ?_ hsp
  rw [Coins.get, List.getD_eq_getElem?_getD, hi]
  rfl

theorem get_some_lt {c : Coins} {i : Nat} {e : CoinEntry} (h : c.get i = some e) :
    i < c.outputs.length := by
  by_contra hcon
  rw [get_of_ge_length c (by omega)] at h
  exact absurd h (by simp)

theorem get_set_self {c : Coins} {i : Nat} (hi : i < c.outputs.length)
    (x : Option CoinEntry) (others : Coins)
    (ho : others.outputs = c.outputs.set i x) : others.get i = x := by
  rw [Coins.get, ho, List.getD_eq_getElem?_getD, List.getElem?_set_self (by simpa using hi)]
  rfl

theorem decoded_isUnspent (c : Coins) (hWF : c.WF) (buf : List Nat) (pos : Nat)
    (hdrop : buf.drop pos = blobFlatten (psFull c)) (hash2 : Nat) :
    ∀ i, (Coins.cleanup
      (Coins.mk c.version hash2 c.height c.coinbase
        (tiledEntries buf (psFull c) pos))).isUnspent i = c.isUnspent i := by
  intro i
  rw [cleanup_isUnspent]
  show (match ((tiledEntries buf (psFull c) pos).getD i none) with
    | none => false
    | some e => !e.spent) = c.isUnspent i
  cases hu : c.isUnspent i with
  | false =>
    rw [decoded_slot_gap c buf pos hu]
  | true =>
    obtain ⟨B, o, hB, _⟩ := slotBytes_some_of_unspent hWF hu
    obtain ⟨e2, h1, hsp, _, _⟩ := decoded_slot_live c buf pos hdrop hB
    simp only [h1, hsp, Bool.not_false]

theorem decoded_get (c : Coins) (buf : List Nat) (pos : Nat) (hash2 : Nat) (i : Nat) :
    (Coins.cleanup
      (Coins.mk c.version hash2 c.height c.coinbase
        (tiledEntries buf (psFull c) pos))).get i =
      (tiledEntries buf (psFull c) pos).getD i none := by
  rw [cleanup_get]
  rfl

/-- C1: decoding the serialization of a legally constructible non-empty
record, injecting the same hash, yields a record equal to the original
under the spec equivalence: same version, height and coinbase; pointwise
equal isUnspent; and at every unspent index outputs whose value and script
agree after canonical script reconstruction. -/
theorem C1_round_trip (c : Coins) (hash : Nat) (hWF : c.WF) (hne : c.length ≠ 0)
    (hh : c.height < 2 ^ 32) :
    ∃ buf c2, c.toRaw = some buf ∧ Coins.fromRaw buf hash = some c2 ∧
      c2.version = c.version ∧ c2.height = c.height ∧ c2.coinbase = c.coinbase ∧
      c2.hash = hash ∧
      (∀ i, c2.isUnspent i = c.isUnspent i) ∧
      (∀ i, c.isUnspent i = true →
        ∃ o o2, c.outputAt i = some o ∧ c2.outputAt i = some o2 ∧
          o2.value = o.value ∧ o2.script = o.script) := by
  obtain ⟨buf, code, hraw, hbuf, hcode, hdrop, hfrom⟩ := decode_master c hash hWF hne hh
  refine ⟨buf, _, hraw, hfrom, rfl, rfl, rfl, rfl, ?_, ?_⟩
  · exact decoded_isUnspent c hWF buf (tailStart c code) hdrop hash
  · intro i hu
    obtain ⟨B, o, hB, _hskip, hdec, e, hg, hsp, hw, ho⟩ := slotBytes_some_of_unspent hWF hu
    obtain ⟨e2, h1, hsp2, hw2, hto2⟩ := decoded_slot_live c buf (tailStart c code) hdrop hB
    refine ⟨o, o, ?_, ?_, rfl, rfl⟩
    · rw [Coins.outputAt, hg]
      simpa using ho
    · rw [Coins.outputAt, decoded_get, h1]
      simpa using hto2 o hdec

theorem exCoins_WF : exCoins.WF := by
  intro en hen e he hsp
  subst he
  simp only [exCoins, List.mem_singleton] at hen
  injection hen with hen
  subst hen
  exact WFO_fromOutput exOut

theorem exCoins9_WF : exCoins9.WF := by
  intro en hen e he hsp
  subst he
  simp only [exCoins9, List.mem_append, List.mem_replicate, List.mem_singleton] at hen
  rcases hen with ⟨_, hen⟩ | hen
  · exact absurd hen (by simp)
  · injection hen with hen
    subst hen
    exact WFO_fromOutput exOut2

theorem cleanupLen_last (l : List (Option CoinEntry)) (n : Nat)
    (h : cleanupLen l n ≠ 0) : (l.getD (cleanupLen l n - 1) none).isSome := by
  induction n with
  | zero => simp [cleanupLen] at h
  | succ n ih =>
    simp only [cleanupLen] at h ⊢
    by_cases hs : (l.getD n none).isSome
    · rw [if_pos hs]
      simpa using hs
    · rw [if_neg hs] at h ⊢
      exact ih h

theorem cleanup_noTrailingGap (c : Coins) : NoTrailingGap (Coins.cleanup c) := by
  unfold NoTrailingGap
  show (c.outputs.take (cleanupLen c.outputs c.outputs.length)).getLast? ≠ some none
  by_cases h0 : cleanupLen c.outputs c.outputs.length = 0
  · rw [h0]
    simp
  · have hk := cleanupLen_last c.outputs c.outputs.length h0
    have hle := cleanupLen_le c.outputs c.outputs.length
    rw [List.getLast?_eq_getElem?]
    have hlen : (c.outputs.take (cleanupLen c.outputs c.outputs.length)).length =
        cleanupLen c.outputs c.outputs.length := by
      rw [List.length_take]
      omega
    rw [hlen, List.getElem?_take_of_lt (by omega)]
    cases hq : c.outputs[cleanupLen c.outputs c.outputs.length - 1]? with
    | none =>
      rw [List.getD_eq_getElem?_getD, hq] at hk
      simp at hk
    | some x =>
      rw [List.getD_eq_getElem?_getD, hq] at hk
      cases x with
      | none => simp at hk
      | some e => simp

theorem getLast_set_of_lt (l : List (Option CoinEntry)) (i : Nat) (x : Option CoinEntry)
    (hi : i < l.length) :
    (l.set i x).getLast? = if i = l.length - 1 then some x else l.getLast? := by
  rw [List.getLast?_eq_getElem?, List.getLast?_eq_getElem?, List.length_set]
  by_cases h : i = l.length - 1
  · rw [if_pos h]
    subst h
    rw [List.getElem?_set_self (by omega)]
  · rw [if_neg h, List.getElem?_set_ne (by omega)]

theorem add_noTrailingGap {c : Coins} {i : Nat} {e : CoinEntry} {c2 : Coins}
    (h : c.add i e = some c2) (hg : NoTrailingGap c) : NoTrailingGap c2 := by
  cases hp : (c.outputs ++ List.replicate (i + 1 - c.outputs.length) none).getD i none with
  | some x =>
    simp only [Coins.add, hp] at h
    exact absurd h (by simp)
  | none =>
    simp only [Coins.add, hp] at h
    injection h with h
    subst h
    have hPlen : (c.outputs ++ List.replicate (i + 1 - c.outputs.length) none).length =
        c.outputs.length + (i + 1 - c.outputs.length) := by
      rw [List.length_append, List.length_replicate]
    have key : ((c.outputs ++ List.replicate (i + 1 - c.outputs.length) none).set i
        (some e)).getLast? ≠ some none := by
      rw [getLast_set_of_lt _ _ _ (by omega)]
      by_cases hl : i = (c.outputs ++ List.replicate (i + 1 - c.outputs.length) none).length - 1
      · rw [if_pos hl]
        simp
      · rw [if_neg hl]
        have hle : i + 1 ≤ c.outputs.length := by
          by_contra hcon
          exact hl (by omega)
        have hz : i + 1 - c.outputs.length = 0 := by omega
        simp only [hz, List.replicate_zero, List.append_nil]
        exact hg
    exact key

theorem spend_noTrailingGap (c : Coins) (i : Nat) (hg : NoTrailingGap c) :
    NoTrailingGap (c.spend i).1 := by
  cases hge : c.get i with
  | none =>
    simp only [Coins.spend, hge]
    exact hg
  | some e =>
    by_cases hsp : e.spent = true
    · simp only [Coins.spend, hge]
      rw [if_pos hsp]
      exact hg
    · simp only [Coins.spend, hge]
      rw [if_neg hsp]
      have key : ((c.outputs.set i (some { e with spent := true })).getLast?) ≠ some none := by
        rw [getLast_set_of_lt _ _ _ (get_some_lt hge)]
        by_cases hl : i = c.outputs.length - 1
        · rw [if_pos hl]
          simp
        · rw [if_neg hl]
          exact hg
      exact key

theorem remove_noTrailingGap (c : Coins) (i : Nat) (hg : NoTrailingGap c) :
    NoTrailingGap (c.remove i).1 := by
  cases hge : c.get i with
  | none =>
    simp only [Coins.remove, hge]
    exact hg
  | some e =>
    simp only [Coins.remove, hge]
    exact cleanup_noTrailingGap _

/-- C5: serializing a fully-spent record is a hard error: when length() is
zero, the header assertion "Cannot serialize fully-spent coins." fires and
toRaw produces nothing. -/
theorem C5_fully_spent_hard_error (c : Coins) (h : c.length = 0) : c.toRaw = none := by
  have hh : c.header c.length ((c.length + 5) / 8) = none := by
    rw [Coins.header, if_pos h]
  simp only [Coins.toRaw, hh]

/-- Witness for C5 at the concrete fully-spent record exSpent. -/
theorem C5_fully_spent_hard_error_witness : exSpent.toRaw = none :=
  C5_fully_spent_hard_error exSpent (by decide)

/-- C3: the header-code offset correction: when neither of the first two
outputs is unspent, the high bits store size minus one (asserting size is
nonzero, and leaving bits 1 and 2 clear), and recoverSize restores any
encoded size exactly. -/
theorem C3_header_offset_correction (c : Coins) (len size : Nat) :
    (c.isUnspent 0 = false → c.isUnspent 1 = false → len ≠ 0 → size ≠ 0 →
      c.header len size = some (8 * (size - 1) + (if c.coinbase then 1 else 0)) ∧
      ∀ code, c.header len size = some code → code &&& 6 = 0) ∧
    (c.isUnspent 0 = false → c.isUnspent 1 = false → len ≠ 0 → size = 0 →
      c.header len size = none) ∧
    (∀ code, c.header len size = some code → recoverSize code = size) := by
  refine ⟨?_, ?_, ?_⟩
  · intro h0 h1 hlen hsz
    constructor
    · rw [Coins.header, if_neg hlen, h0, h1]
      simp only [Bool.not_false, Bool.and_self, if_true, if_neg hsz]
    · intro code hc
      obtain ⟨_, S, hS, _, _⟩ := header_spec hc
      obtain ⟨_, _, _, ha6, _⟩ := code_bits hS
      exact ha6.mpr ⟨h0, h1⟩
  · intro h0 h1 hlen hsz
    rw [Coins.header, if_neg hlen, h0, h1]
    simp only [Bool.not_false, Bool.and_self, if_true, if_pos hsz]
  · intro code hc
    exact (header_recover hc).1

/-- Witness for C3 at exCoins9: nine outputs, only index 8 unspent, so
size is 1 and the code stores 0. -/
theorem C3_header_offset_correction_witness :
    exCoins9.header 9 1 = some 0 ∧ recoverSize 0 = 1 := by
  have h1 := ((C3_header_offset_correction exCoins9 9 1).1 (by decide) (by decide)
    (by decide) (by decide)).1
  have h2 := (C3_header_offset_correction exCoins9 9 1).2.2 0
  refine ⟨h1, h2 ?_⟩
  exact h1

/-- C8: spend is idempotent with a distinguishable sentinel: spending the
same index twice leaves the record exactly as one spend and the second
call returns none; the first call on an unspent slot returns the marked
entry, and any call on an absent or spent slot is a sentinel no-op. -/
theorem C8_spend_idempotent (c : Coins) (i : Nat) :
    ((c.spend i).1.spend i).1 = (c.spend i).1 ∧ ((c.spend i).1.spend i).2 = none ∧
    (∀ e, c.get i = some e → e.spent = false →
      (c.spend i).2 = some { e with spent := true }) ∧
    (c.get i = none → c.spend i = (c, none)) ∧
    (∀ e, c.get i = some e → e.spent = true → c.spend i = (c, none)) := by
  cases hg : c.get i with
  | none =>
    have h1 : c.spend i = (c, none) := by
      simp only [Coins.spend, hg]
    rw [h1]
    refine ⟨?_, ?_, ?_, fun _ => rfl, ?_⟩
    · rw [h1]
    · rw [h1]
    · intro e he _
      exact absurd he (by simp)
    · intro e he _
      exact absurd he (by simp)
  | some e =>
    by_cases hsp : e.spent = true
    · have h1 : c.spend i = (c, none) := by
        simp only [Coins.spend, hg]
        rw [if_pos hsp]
      rw [h1]
      refine ⟨?_, ?_, ?_, fun _ => rfl, fun _ _ _ => rfl⟩
      · rw [h1]
      · rw [h1]
      · intro e2 he2 hsp2
        injection he2 with he2
        subst he2
        rw [hsp2] at hsp
        exact absurd hsp (by simp)
    · have hsp0 : e.spent = false := by simpa using hsp
      have h1 : c.spend i =
          ({ c with outputs := c.outputs.set i (some { e with spent := true }) },
           some { e with spent := true }) := by
        simp only [Coins.spend, hg]
        rw [if_neg hsp]
      have hg2 : (c.spend i).1.get i = some { e with spent := true } := by
        apply get_set_self (get_some_lt hg) (some { e with spent := true })
        rw [h1]
      have h2 : (c.spend i).1.spend i = ((c.spend i).1, none) := by
        set c1 := (c.spend i).1 with hc1
        simp only [Coins.spend, hg2]
        simp
      refine ⟨?_, ?_, ?_, ?_, ?_⟩
      · rw [h2]
      · rw [h2]
      · intro e2 he2 _
        injection he2 with he2
        subst he2
        rw [h1]
      · intro habs
        exact absurd habs (by simp)
      · intro e2 he2 hsp2
        injection he2 with he2
        subst he2
        rw [hsp0] at hsp2
        exact absurd hsp2 (by simp)

/-- Witness for C8 at exCoins, index 0. -/
theorem C8_spend_idempotent_witness :
    ((exCoins.spend 0).1.spend 0).1 = (exCoins.spend 0).1 ∧
    ((exCoins.spend 0).1.spend 0).2 = none ∧
    (exCoins.spend 0).2 = some { CoinEntry.fromOutput exOut with spent := true } :=
  ⟨(C8_spend_idempotent exCoins 0).1, (C8_spend_idempotent exCoins 0).2.1,
   (C8_spend_idempotent exCoins 0).2.2.1 (CoinEntry.fromOutput exOut) (by decide) (by decide)⟩

/-- C10: spend on an unspent entry only sets that slot's spent flag: the
metadata, the vector length and every other slot are unchanged and no
trimming occurs; remove, by contrast, nulls the slot and runs cleanup. -/
theorem C10_spend_frame (c : Coins) (i : Nat) (e : CoinEntry)
    (hg : c.get i = some e) (hsp : e.spent = false) :
    (c.spend i).1.version = c.version ∧ (c.spend i).1.height = c.height ∧
    (c.spend i).1.coinbase = c.coinbase ∧ (c.spend i).1.hash = c.hash ∧
    (c.spend i).1.outputs.length = c.outputs.length ∧
    (∀ j, j ≠ i → (c.spend i).1.get j = c.get j) ∧
    (c.spend i).1.get i = some { e with spent := true } ∧
    (c.remove i).1 = Coins.cleanup { c with outputs := c.outputs.set i none } := by
  have hnsp : ¬ e.spent = true := by simp [hsp]
  have h1 : c.spend i =
      ({ c with outputs := c.outputs.set i (some { e with spent := true }) },
       some { e with spent := true }) := by
    simp only [Coins.spend, hg]
    rw [if_neg hnsp]
  refine ⟨by rw [h1], by rw [h1], by rw [h1], by rw [h1], ?_, ?_, ?_, ?_⟩
  · rw [h1]
    show (c.outputs.set i (some { e with spent := true })).length = c.outputs.length
    rw [List.length_set]
  · intro j hj
    rw [h1]
    show (c.outputs.set i (some { e with spent := true })).getD j none =
      c.outputs.getD j none
    rw [List.getD_eq_getElem?_getD, List.getD_eq_getElem?_getD,
      List.getElem?_set_ne (Ne.symm hj)]
  · apply get_set_self (get_some_lt hg)
    rw [h1]
  · simp [Coins.remove, hg]

/-- Witness for C10 at exCoins, index 0. -/
theorem C10_spend_frame_witness :
    (exCoins.spend 0).1.outputs.length = exCoins.outputs.length ∧
    (exCoins.spend 0).1.get 0 = some { CoinEntry.fromOutput exOut with spent := true } :=
  ⟨(C10_spend_frame exCoins 0 (CoinEntry.fromOutput exOut) (by decide)
      (by decide)).2.2.2.2.1,
   (C10_spend_frame exCoins 0 (CoinEntry.fromOutput exOut) (by decide)
      (by decide)).2.2.2.2.2.2.1⟩

/-- C9: unspendable outputs are never stored: addOutput and addCoin assert
spendability, and fromTX maps an unspendable output to a gap. -/
theorem C9_unspendable_never_stored (c : Coins) (i : Nat) (o : Output) (coin : Coin)
    (tx : TX) (height : Nat)
    (ho : scriptIsUnspendable o.script = true)
    (hcoin : scriptIsUnspendable coin.script = true) :
    c.addOutput i o = none ∧ c.addCoin coin = none ∧
    ∀ j, (hj : j < tx.outputs.length) →
      scriptIsUnspendable (tx.outputs[j].script) = true →
      (Coins.fromTX tx height).get j = none := by
  refine ⟨?_, ?_, ?_⟩
  · rw [Coins.addOutput, if_pos ho]
  · rw [Coins.addCoin, if_pos hcoin]
  · intro j hj hsj
    rw [Coins.fromTX, cleanup_get]
    show (tx.outputs.map (fun o => if scriptIsUnspendable o.script then none
      else some (CoinEntry.fromOutput o))).getD j none = none
    rw [List.getD_eq_getElem?_getD, List.getElem?_map, List.getElem?_eq_getElem hj]
    simp [hsj]

/-- Witness for C9 at the OP_RETURN output exBadOut and transaction exTX. -/
theorem C9_unspendable_never_stored_witness :
    exCoins.addOutput 1 exBadOut = none ∧ (Coins.fromTX exTX 9).get 1 = none :=
  ⟨(C9_unspendable_never_stored exCoins 1 exBadOut (Coin.mk 1 9 false 5 1 3 [106]) exTX 9
      (by decide) (by decide)).1,
   (C9_unspendable_never_stored exCoins 1 exBadOut (Coin.mk 1 9 false 5 1 3 [106]) exTX 9
      (by decide) (by decide)).2.2 1 (by decide) (by decide)⟩

/-- C6 counterexample: after spend, the spec equality outputs.length ==
length() fails: spending the only output of exCoins keeps the vector at
one slot while length() drops to zero, because spend does not run
cleanup. -/
theorem C6_cleanup_invariant_counterexample :
    ¬ ((exCoins.spend 0).1.outputs.length = (exCoins.spend 0).1.length) := by
  decide

/-- C6 (amended): the invariant the code actually maintains after each
mutation is the no-trailing-gap property: the outputs vector never ends in
a null slot (spent entries may remain, so outputs.length can exceed
length()). -/
theorem C6_mutation_no_trailing_gap (c : Coins) (i : Nat) (e : CoinEntry) (o : Output)
    (coin : Coin) (tx : TX) (height : Nat) (hg : NoTrailingGap c) :
    (∀ c2, c.add i e = some c2 → NoTrailingGap c2) ∧
    (∀ c2, c.addOutput i o = some c2 → NoTrailingGap c2) ∧
    (∀ c2, c.addCoin coin = some c2 → NoTrailingGap c2) ∧
    NoTrailingGap (c.spend i).1 ∧
    NoTrailingGap (c.remove i).1 ∧
    NoTrailingGap (Coins.cleanup c) ∧
    NoTrailingGap (Coins.fromTX tx height) := by
  refine ⟨fun c2 h => add_noTrailingGap h hg, ?_, ?_, spend_noTrailingGap c i hg,
    remove_noTrailingGap c i hg, cleanup_noTrailingGap c, cleanup_noTrailingGap _⟩
  · intro c2 h
    rw [Coins.addOutput] at h
    by_cases hs : scriptIsUnspendable o.script = true
    · rw [if_pos hs] at h
      exact absurd h (by simp)
    · rw [if_neg hs] at h
      exact add_noTrailingGap h hg
  · intro c2 h
    rw [Coins.addCoin] at h
    by_cases hs : scriptIsUnspendable coin.script = true
    · rw [if_pos hs] at h
      exact absurd h (by simp)
    · rw [if_neg hs] at h
      exact add_noTrailingGap h hg

/-- Witness for the amended C6 at exCoins. -/
theorem C6_mutation_no_trailing_gap_witness :
    NoTrailingGap (exCoins.spend 0).1 ∧ NoTrailingGap (exCoins.remove 0).1 :=
  ⟨(C6_mutation_no_trailing_gap exCoins 0 (CoinEntry.fromOutput exOut) exOut
      (Coin.mk 1 9 false 5 1 3 [81]) exTX 9 (by unfold NoTrailingGap; decide)).2.2.2.1,
   (C6_mutation_no_trailing_gap exCoins 0 (CoinEntry.fromOutput exOut) exOut
      (Coin.mk 1 9 false 5 1 3 [81]) exTX 9 (by unfold NoTrailingGap; decide)).2.2.2.2.1⟩

theorem parseCoin_early (data : List Nat) (hash2 S : Nat)
    (hS : decodedSpentSize data = some S) :
    ∀ i, 2 + 8 * S ≤ i → Coins.parseCoin data hash2 i = some none := by
  intro i hi
  cases hv : readVarintAt data 0 with
  | none => simp [decodedSpentSize, hv] at hS
  | some vp =>
    obtain ⟨v0, p1⟩ := vp
    cases hu : readU32At data p1 with
    | none => simp [decodedSpentSize, hv, hu] at hS
    | some hp =>
      obtain ⟨h0, p2⟩ := hp
      cases hc : readVarintAt data p2 with
      | none => simp [decodedSpentSize, hv, hu, hc] at hS
      | some cp =>
        obtain ⟨code, p3⟩ := cp
        simp only [decodedSpentSize, hv, hu, hc] at hS
        injection hS with hS
        simp only [Coins.parseCoin, hv, hu, hc]
        rw [if_pos (by omega)]

/-- Witness for C1 at exCoins with hash 42. -/
theorem C1_round_trip_witness :
    ∃ buf c2, exCoins.toRaw = some buf ∧ Coins.fromRaw buf 42 = some c2 ∧
      c2.version = exCoins.version ∧ c2.height = exCoins.height ∧
      c2.coinbase = exCoins.coinbase ∧ c2.hash = 42 ∧
      (∀ i, c2.isUnspent i = exCoins.isUnspent i) ∧
      (∀ i, exCoins.isUnspent i = true →
        ∃ o o2, exCoins.outputAt i = some o ∧ c2.outputAt i = some o2 ∧
          o2.value = o.value ∧ o2.script = o.script) :=
  C1_round_trip exCoins 42 exCoins_WF (by decide) (by decide)

/-- C7: the extended spent-field describes outputs from index 2 upward,
LSB-first within each byte and bytes in ascending order: on the write path
bit j of byte i is set iff output 2 + 8 i + j is in range and unspent; on
the read path the presence bit decoded at position 8 i + j is exactly bit
j of byte i of the buffer; and for nine outputs of which only index 8 is
unspent, the header code is 0 and the single extended byte is
64 = 0b01000000. -/
theorem C7_extended_spent_field (c : Coins) (len size i j : Nat) (hi : i < size)
    (hj : j < 8) (data : List Nat) (offset : Nat) :
    ((spentByte c len i).testBit j =
      (decide (2 + i * 8 + j < len) && c.isUnspent (2 + i * 8 + j))) ∧
    ((c.spentField size len).getD i 0 = spentByte c len i) ∧
    ((extBits data offset size).getD (i * 8 + j) false =
      (data.getD (offset + i) 0).testBit j) ∧
    exCoins9.header 9 1 = some 0 ∧ exCoins9.spentField 1 9 = [64] := by
  refine ⟨spentByte_testBit c len i j hj, spentField_getD c size len i hi, ?_,
    by decide, by decide⟩
  rw [extBits_getD data offset size i j hi hj, and_shift_ne_zero]

/-- Witness for C7: byte 0, bit 6 describes output 2 + 6 = 8. -/
theorem C7_extended_spent_field_witness :
    (spentByte exCoins9 9 0).testBit 6 =
      (decide (2 + 0 * 8 + 6 < 9) && exCoins9.isUnspent (2 + 0 * 8 + 6)) ∧
    (extBits [64] 0 1).getD (0 * 8 + 6) false = (List.getD [64] (0 + 0) 0).testBit 6 :=
  ⟨(C7_extended_spent_field exCoins9 9 1 0 6 (by decide) (by decide) [64] 0).1,
   (C7_extended_spent_field exCoins9 9 1 0 6 (by decide) (by decide) [64] 0).2.2.1⟩

/-- C2: parseCoin agrees with full decoding: on a buffer produced by
toRaw, for every index, parseCoin returns exactly what fromRaw followed by
getCoin returns, injecting the same hash; and on any buffer whose header
decodes to a spent-field of size S, parseCoin returns the not-found
sentinel immediately for every index at least 2 + 8 S. -/
theorem C2_parse_coin_consistent (c : Coins) (hash : Nat) (hWF : c.WF)
    (hne : c.length ≠ 0) (hh : c.height < 2 ^ 32) :
    (∃ buf c2, c.toRaw = some buf ∧ Coins.fromRaw buf hash = some c2 ∧
      ∀ i, Coins.parseCoin buf hash i = c2.getCoin i) ∧
    (∀ data hash2 S, decodedSpentSize data = some S →
      ∀ i, 2 + 8 * S ≤ i → Coins.parseCoin data hash2 i = some none) := by
  refine ⟨?_, fun data hash2 S hS i hi => parseCoin_early data hash2 S hS i hi⟩
  obtain ⟨buf, code, hraw, hbuf, hcode, hdrop, hfrom⟩ := decode_master c hash hWF hne hh
  refine ⟨buf, _, hraw, hfrom, ?_⟩
  subst hbuf
  obtain ⟨hr1, hr2, hr3, hdF, hdT, hblen⟩ :=
    decode_headers
      (putVarint c.version ++ putU32 c.height ++ putVarint code ++
        c.spentField ((c.length + 5) / 8) c.length ++
        blobFlatten ((List.range c.length).map (fun i => slotBytes c i)))
      c.version c.height code ((c.length + 5) / 8)
      (c.spentField ((c.length + 5) / 8) c.length)
      (blobFlatten ((List.range c.length).map (fun i => slotBytes c i)))
      rfl hh (spentField_length c ((c.length + 5) / 8) c.length)
  obtain ⟨hrs, hcb, hb2, hb4⟩ := header_recover hcode
  have hstabFull := psFull_stable hWF
  intro i
  simp only [Coins.parseCoin, hr1, hr2, hr3, hrs]
  by_cases hidx : 2 + (c.length + 5) / 8 * 8 ≤ i
  · rw [if_pos hidx]
    have hget : (tiledEntries (putVarint c.version ++ putU32 c.height ++ putVarint code ++
        c.spentField ((c.length + 5) / 8) c.length ++
        blobFlatten ((List.range c.length).map (fun i => slotBytes c i)))
        (psFull c) (tailStart c code)).getD i none = none := by
      rw [List.getD_eq_getElem?_getD, List.getElem?_eq_none]
      · rfl
      · rw [tiledEntries_length]
        unfold psFull
        rw [List.length_map, List.length_range]
        omega
    simp only [Coins.getCoin, decoded_get, hget]
  · rw [if_neg hidx]
    have hguard : ¬ ((putVarint c.version ++ putU32 c.height ++ putVarint code ++
        c.spentField ((c.length + 5) / 8) c.length ++
        blobFlatten ((List.range c.length).map (fun i => slotBytes c i))).length <
          (putVarint c.version).length + 4 + (putVarint code).length +
            (c.length + 5) / 8) := by
      rw [hblen]
      omega
    rw [if_neg hguard]
    have hbits01 : [code &&& 2 != 0, code &&& 4 != 0] =
        ([slotBytes c 0, slotBytes c 1].map Option.isSome) := by
      simp only [List.map_cons, List.map_nil, slotBytes_isSome hWF, hb2, hb4]
    have hbits2 : extBits
        (putVarint c.version ++ putU32 c.height ++ putVarint code ++
          c.spentField ((c.length + 5) / 8) c.length ++
          blobFlatten ((List.range c.length).map (fun i => slotBytes c i)))
        ((putVarint c.version).length + 4 + (putVarint code).length)
        ((c.length + 5) / 8) =
        (((List.range (8 * ((c.length + 5) / 8))).map (fun k => slotBytes c (2 + k))).map
          Option.isSome) := by
      rw [extBits_spec c hWF _ _ _ _ (by omega) hdF, List.map_map]
      rfl
    have hbitsFull : [code &&& 2 != 0, code &&& 4 != 0] ++
        extBits (putVarint c.version ++ putU32 c.height ++ putVarint code ++
          c.spentField ((c.length + 5) / 8) c.length ++
          blobFlatten ((List.range c.length).map (fun i => slotBytes c i)))
          ((putVarint c.version).length + 4 + (putVarint code).length)
          ((c.length + 5) / 8) =
        (psFull c).map Option.isSome := by
      rw [hbits01, hbits2, psFull_eq, List.map_append]
    rw [hbitsFull]
    have hwalk := parseWalk_tiled
      (putVarint c.version ++ putU32 c.height ++ putVarint code ++
        c.spentField ((c.length + 5) / 8) c.length ++
        blobFlatten ((List.range c.length).map (fun i => slotBytes c i)))
      (psFull c) (tailStart c code) [] i (by rw [hdrop, List.append_nil]) hstabFull
    rw [show (putVarint c.version).length + 4 + (putVarint code).length +
      (c.length + 5) / 8 = tailStart c code from rfl, hwalk]
    cases hslot : (tiledEntries (putVarint c.version ++ putU32 c.height ++ putVarint code ++
        c.spentField ((c.length + 5) / 8) c.length ++
        blobFlatten ((List.range c.length).map (fun i => slotBytes c i)))
        (psFull c) (tailStart c code)).getD i none with
    | none =>
      simp only [Option.none_bind, Coins.getCoin, decoded_get, hslot]
    | some e2 =>
      have hu : c.isUnspent i = true := by
        by_contra hcon
        have hf : c.isUnspent i = false := by simpa using hcon
        rw [decoded_slot_gap c _ (tailStart c code) hf] at hslot
        exact absurd hslot (by simp)
      obtain ⟨B, o, hB, _hsk, hdec, e, hg, hsp, hw, ho⟩ := slotBytes_some_of_unspent hWF hu
      obtain ⟨e2b, h1, hspb, hwb, htob⟩ :=
        decoded_slot_live c _ (tailStart c code) hdrop hB
      rw [hslot] at h1
      injection h1 with h1
      subst h1
      have hto : e2.toOutput = some o := htob o hdec
      simp only [Option.some_bind, hto, Coins.getCoin, decoded_get, hslot, hcb,
        cleanup_version, cleanup_height, cleanup_coinbase, cleanup_hash]

/-- Witness for C2 at exCoins with hash 42 (and the early return
instantiated on the encoding of exCoins9, whose decoded size is 1, at
index 10). -/
theorem C2_parse_coin_consistent_witness :
    (∃ buf c2, exCoins.toRaw = some buf ∧ Coins.fromRaw buf 42 = some c2 ∧
      ∀ i, Coins.parseCoin buf 42 i = c2.getCoin i) ∧
    (∀ data hash2 S, decodedSpentSize data = some S →
      ∀ i, 2 + 8 * S ≤ i → Coins.parseCoin data hash2 i = some none) :=
  C2_parse_coin_consistent exCoins 42 exCoins_WF (by decide) (by decide)

/-- C4: decode immediately followed by encode, with no entry ever
materialized and no mutation, reproduces the input buffer byte for byte:
the recomputed header, spent-field and the byte-copied entries coincide
with the original bytes. -/
theorem C4_reencode_identity (c : Coins) (hash : Nat) (hWF : c.WF) (hne : c.length ≠ 0)
    (hh : c.height < 2 ^ 32) :
    ∃ buf c2, c.toRaw = some buf ∧ Coins.fromRaw buf hash = some c2 ∧
      c2.toRaw = some buf := by
  obtain ⟨buf, code, hraw, hbuf, hcode, hdrop, hfrom⟩ := decode_master c hash hWF hne hh
  refine ⟨buf, _, hraw, hfrom, ?_⟩
  have hiso := decoded_isUnspent c hWF buf (tailStart c code) hdrop hash
  set c2 := Coins.cleanup (Coins.mk c.version hash c.height c.coinbase
    (tiledEntries buf (psFull c) (tailStart c code))) with hc2
  have hlen2 : c2.length = c.length := length_congr hiso
  have hWF2 : c2.WF := by
    apply WF_of_get
    intro j e2 hg2 hsp2
    rw [hc2, decoded_get] at hg2
    by_cases hu : c.isUnspent j = true
    · obtain ⟨B, o, hB, hsk, hdec, e, hg, hsp, hw, ho⟩ := slotBytes_some_of_unspent hWF hu
      obtain ⟨e2b, h1, hspb, hwb, htob⟩ := decoded_slot_live c buf (tailStart c code) hdrop hB
      rw [hg2] at h1
      injection h1 with h1
      subst h1
      exact ⟨B, o, hwb, htob o hdec, hsk, hdec⟩
    · have hf : c.isUnspent j = false := by simpa using hu
      rw [decoded_slot_gap c buf (tailStart c code) hf] at hg2
      exact absurd hg2 (by simp)
  have hslot : ∀ j, slotBytes c2 j = slotBytes c j := by
    intro j
    by_cases hu : c.isUnspent j = true
    · obtain ⟨B, o, hB, hsk, hdec, e, hg, hsp, hw, ho⟩ := slotBytes_some_of_unspent hWF hu
      obtain ⟨e2b, h1, hspb, hwb, htob⟩ := decoded_slot_live c buf (tailStart c code) hdrop hB
      have hg2 : c2.get j = some e2b := by
        rw [hc2, decoded_get]
        exact h1
      rw [hB]
      simp [slotBytes, hg2, hspb, hwb]
    · have hf : c.isUnspent j = false := by simpa using hu
      rw [slotBytes_none_of_not_unspent ((hiso j).trans hf),
        slotBytes_none_of_not_unspent hf]
  have hne2 : c2.length ≠ 0 := by
    rw [hlen2]
    exact hne
  obtain ⟨code2, hcode2, hraw2⟩ := toRaw_structure c2 hWF2 hne2
  have hhc : c2.header c.length ((c.length + 5) / 8) =
      c.header c.length ((c.length + 5) / 8) :=
    header_congr c.length ((c.length + 5) / 8) rfl hiso
  have hc2c : code2 = code := by
    rw [hlen2, hhc, hcode] at hcode2
    injection hcode2 with h
    exact h.symm
  rw [hraw2]
  have hv : c2.version = c.version := rfl
  have hht : c2.height = c.height := rfl
  have hfun : (fun i => slotBytes c2 i) = (fun i => slotBytes c i) := funext hslot
  rw [hv, hht, hc2c, hlen2, hfun, spentField_congr ((c.length + 5) / 8) c.length hiso, hbuf]

/-- Witness for C4 at exCoins with hash 42. -/
theorem C4_reencode_identity_witness :
    ∃ buf c2, exCoins.toRaw = some buf ∧ Coins.fromRaw buf 42 = some c2 ∧
      c2.toRaw = some buf :=
  C4_reencode_identity exCoins 42 exCoins_WF (by decide) (by decide)

end BcoinCoins
